import Mathlib

/-!
Shallow embedding of the crev trust database (`src/crev-lib/src/trustdb.rs`) and
proofs of the specification claims about it.

Conventions of the embedding:
* identities (`Id`) and digests are opaque byte strings in the source; they are
  modelled as `Nat` (equality and a total order is all the source uses);
* URLs and signatures are modelled as `String`;
* `chrono::DateTime<Utc>` timestamps are modelled as `Nat` (only their total
  order is used by the source);
* Rust `HashMap` values are modelled as association lists (`List (κ × β)`) with
  `alookup` / entry-style updates; `BTreeSet<String>` is modelled as an
  ascending duplicate-free list with ordered insertion (`btreeInsert`), so that
  set iteration order is the ascending element order, as in the source;
* fallible / panicking operations return `Option`, with `none` for a panic.
-/

/-- Association-list lookup with decidable key equality; models `HashMap::get`
and `BTreeMap::get`. -/
def alookup {κ β : Type} [DecidableEq κ] (k : κ) : List (κ × β) → Option β
  | [] => none
  | (k', v) :: rest => if k = k' then some v else alookup k rest

/-- The timestamped value wrapper `Timestamped<T>` of trustdb.rs. -/
structure Timestamped (T : Type) where
  date : Nat
  value : T
deriving DecidableEq, Repr

/-- `Timestamped::update_to_more_recent`: when the incoming date is strictly
newer, the stored value is replaced.  Note: exactly as in the source, the
stored `date` field is left untouched by the update. -/
def Timestamped.update_to_more_recent {T : Type} (t : Timestamped T)
    (date : Nat) (value : T) : Timestamped T :=
  if t.date < date then { t with value := value } else t

/-- `Timestamped::insert_into_or_update_to_more_recent` over an association
list, modelling the `hash_map::Entry` API of the source: an occupied entry is
updated in place via `update_to_more_recent`, a vacant entry is inserted. -/
def Timestamped.insert_into_or_update_to_more_recent {κ T : Type} [DecidableEq κ]
    (incoming : Timestamped T) (k : κ) :
    List (κ × Timestamped T) → List (κ × Timestamped T)
  | [] => [(k, incoming)]
  | (k', t) :: rest =>
    if k = k' then (k', t.update_to_more_recent incoming.date incoming.value) :: rest
    else (k', t) :: incoming.insert_into_or_update_to_more_recent k rest

/-- Models `Entry::or_insert_with`: insert only when the key is absent
(write-once semantics). -/
def orInsert {κ β : Type} [DecidableEq κ] (k : κ) (v : β) (m : List (κ × β)) :
    List (κ × β) :=
  match alookup k m with
  | some _ => m
  | none => m ++ [(k, v)]

/-- Lexicographic comparison of character lists by code point; the strict
order underlying Rust's `Ord for String` (byte order coincides with scalar
code-point order for UTF-8). -/
def charsLtB : List Char → List Char → Bool
  | [], [] => false
  | [], _ :: _ => true
  | _ :: _, [] => false
  | a :: as, b :: bs =>
    if a.toNat < b.toNat then true
    else if b.toNat < a.toNat then false
    else charsLtB as bs

/-- Strict lexicographic order on strings (Rust's `Ord for String`). -/
def strLtB (a b : String) : Bool := charsLtB a.data b.data

/-- Models `BTreeSet::insert` on signature sets: ordered insertion without
duplicates.  The list is kept ascending in lexicographic signature order, so
list order is the set's iteration order. -/
def btreeInsert (x : String) : List String → List String
  | [] => [x]
  | y :: rest =>
    if strLtB x y then x :: y :: rest
    else if x = y then y :: rest
    else y :: btreeInsert x rest

/-- Models `BTreeMap::entry(k).or_default().insert(sig)` on a map from keys to
signature sets, as used for the three secondary review indices. -/
def mapSetInsert {κ : Type} [DecidableEq κ] (k : κ) (sig : String) :
    List (κ × List String) → List (κ × List String)
  | [] => [(k, btreeInsert sig [])]
  | (k', s) :: rest =>
    if k = k' then (k', btreeInsert sig s) :: rest
    else (k', s) :: mapSetInsert k sig rest

/-- Modelled from the spec: `TrustLevel` of crev-data (the crate is not part of
the sources), a totally ordered enumeration `Distrust < None < Low < Medium <
High`; trustdb.rs matches exactly on these five variants. -/
inductive TrustLevel : Type
  | Distrust
  | None
  | Low
  | Medium
  | High
deriving DecidableEq, Repr

/-- Modelled from the spec: `Rating` of crev-data (the crate is not part of the
sources), a totally ordered enumeration running from strongly negative through
`Neutral` to strongly positive.  Only the order relative to `Neutral` is
observed by trustdb.rs. -/
inductive Rating : Type
  | Dangerous
  | Negative
  | Neutral
  | Positive
  | Strong
deriving DecidableEq, Repr

/-- The rank of a rating in the total order of `Rating`. -/
def Rating.toNat : Rating → Nat
  | .Dangerous => 0
  | .Negative => 1
  | .Neutral => 2
  | .Positive => 3
  | .Strong => 4

instance : LT Rating := ⟨fun a b => a.toNat < b.toNat⟩

instance : LE Rating := ⟨fun a b => a.toNat ≤ b.toNat⟩

instance (a b : Rating) : Decidable (a < b) :=
  inferInstanceAs (Decidable (a.toNat < b.toNat))

instance (a b : Rating) : Decidable (a ≤ b) :=
  inferInstanceAs (Decidable (a.toNat ≤ b.toNat))

/-- Modelled from the spec: `crate::VerificationStatus` (crev-lib's lib.rs is
not part of the sources); the three-valued verification outcome. -/
inductive VerificationStatus : Type
  | Verified
  | Flagged
  | Unknown
deriving DecidableEq, Repr

/-- Modelled from the spec: `crev_data::PubId`, an identity together with its
URL, as it appears in the `from` and `ids` fields of proofs. -/
structure PubId where
  id : Nat
  url : String
deriving DecidableEq, Repr

/-- Modelled from the spec: `review::Review`; trustdb.rs observes only its
`rating` field. -/
structure Review where
  rating : Rating
deriving DecidableEq, Repr

/-- Modelled from the spec: the `PackageInfo` of a package review; trustdb.rs
observes `source`, `name`, `version` and `digest`. -/
structure PackageInfo where
  source : String
  name : String
  version : String
  digest : Nat
deriving DecidableEq, Repr

/-- Modelled from the spec: `review::Package`, a package review proof content
(`from`, UTC date, package info, review). -/
structure PackageReview where
  from_ : PubId
  date : Nat
  package : PackageInfo
  review : Review
deriving DecidableEq, Repr

/-- Modelled from the spec: one file entry of a code review; trustdb.rs
observes only the file digest. -/
structure FileEntry where
  digest : Nat
deriving DecidableEq, Repr

/-- Modelled from the spec: `review::Code`, a code review proof content. -/
structure CodeReview where
  from_ : PubId
  date : Nat
  files : List FileEntry
  review : Review
deriving DecidableEq, Repr

/-- Modelled from the spec: `proof::Trust`, a trust proof content (`from`, UTC
date, target identities with URLs, a trust level). -/
structure TrustProof where
  from_ : PubId
  date : Nat
  ids : List PubId
  trust : TrustLevel
deriving DecidableEq, Repr

/-- Modelled from the spec: the `Content` discriminated union of a proof. -/
inductive Content : Type
  | Code : CodeReview → Content
  | Package : PackageReview → Content
  | Trust : TrustProof → Content
deriving DecidableEq, Repr

/-- Modelled from the spec: `proof::Proof`, a signed proof record.  Signature
verification is cryptographic and outside the embedding; the import stream is
assumed to consist of already-verified proofs, as the source's
`proof.verify().expect(..)` demands. -/
structure Proof where
  signature : String
  content : Content
deriving DecidableEq, Repr

/-- The in-memory trust database `TrustDB` of trustdb.rs, field for field. -/
structure TrustDB where
  trust_id_to_id : List (Nat × List (Nat × Timestamped TrustLevel))
  digest_to_reviews : List (Nat × List (Nat × Timestamped Review))
  url_by_id : List (Nat × Timestamped String)
  url_by_id_secondary : List (Nat × Timestamped String)
  package_review_by_signature : List (String × PackageReview)
  package_reviews_by_source : List (String × List String)
  package_reviews_by_name : List ((String × String) × List String)
  package_reviews_by_version : List ((String × String × String) × List String)
deriving DecidableEq, Repr

/-- `TrustDB::new` / `Default::default`: the empty database. -/
def TrustDB.new : TrustDB :=
  ⟨[], [], [], [], [], [], [], []⟩

/-- `TrustDB::record_url_from_from_field`: upsert the author's URL into the
primary URL map with latest-wins semantics. -/
def TrustDB.record_url_from_from_field (db : TrustDB) (date : Nat) (from_ : PubId) :
    TrustDB :=
  let m := (Timestamped.mk date from_.url).insert_into_or_update_to_more_recent
    from_.id db.url_by_id
  { db with url_by_id := m }

/-- `TrustDB::record_url_from_to_field`: record a trust target's URL into the
secondary URL map, never overwriting an existing entry (`or_insert_with`). -/
def TrustDB.record_url_from_to_field (db : TrustDB) (date : Nat) (to_ : PubId) :
    TrustDB :=
  let m := orInsert to_.id (Timestamped.mk date to_.url) db.url_by_id_secondary
  { db with url_by_id_secondary := m }

/-- The upsert of one review entry in `digest_to_reviews`, i.e. the source's
`digest_to_reviews.entry(digest).or_insert_with(HashMap::new).entry(id)`
combined with `insert_into_or_update_to_more_recent`. -/
def digestReviewUpsert (digest who : Nat) (incoming : Timestamped Review) :
    List (Nat × List (Nat × Timestamped Review)) →
      List (Nat × List (Nat × Timestamped Review))
  | [] => [(digest, [(who, incoming)])]
  | (d, inner) :: rest =>
    if digest = d then (d, incoming.insert_into_or_update_to_more_recent who inner) :: rest
    else (d, inner) :: digestReviewUpsert digest who incoming rest

/-- `TrustDB::add_code_review`. -/
def TrustDB.add_code_review (db : TrustDB) (review : CodeReview) : TrustDB :=
  let db := db.record_url_from_from_field review.date review.from_
  review.files.foldl
    (fun db file =>
      let m := digestReviewUpsert file.digest review.from_.id
        (Timestamped.mk review.date review.review) db.digest_to_reviews
      { db with digest_to_reviews := m })
    db

/-- `TrustDB::add_package_review`. -/
def TrustDB.add_package_review (db : TrustDB) (review : PackageReview)
    (signature : String) : TrustDB :=
  let db := db.record_url_from_from_field review.date review.from_
  let m1 := digestReviewUpsert review.package.digest review.from_.id
    (Timestamped.mk review.date review.review) db.digest_to_reviews
  let db := { db with digest_to_reviews := m1 }
  let m2 := orInsert signature review db.package_review_by_signature
  let db := { db with package_review_by_signature := m2 }
  let m3 := mapSetInsert review.package.source signature db.package_reviews_by_source
  let db := { db with package_reviews_by_source := m3 }
  let m4 := mapSetInsert (review.package.source, review.package.name) signature
    db.package_reviews_by_name
  let db := { db with package_reviews_by_name := m4 }
  let m5 := mapSetInsert
    (review.package.source, review.package.name, review.package.version)
    signature db.package_reviews_by_version
  { db with package_reviews_by_version := m5 }

/-- The nested upsert on `trust_id_to_id`, i.e.
`trust_id_to_id.entry(from).or_insert_with(HashMap::new).entry(to)` combined
with `insert_into_or_update_to_more_recent`. -/
def trustUpsert (from_ to_ : Nat) (incoming : Timestamped TrustLevel) :
    List (Nat × List (Nat × Timestamped TrustLevel)) →
      List (Nat × List (Nat × Timestamped TrustLevel))
  | [] => [(from_, [(to_, incoming)])]
  | (f, inner) :: rest =>
    if from_ = f then (f, incoming.insert_into_or_update_to_more_recent to_ inner) :: rest
    else (f, inner) :: trustUpsert from_ to_ incoming rest

/-- `TrustDB::add_trust_raw`. -/
def TrustDB.add_trust_raw (db : TrustDB) (from_ to_ : Nat) (date : Nat)
    (trust : TrustLevel) : TrustDB :=
  let m := trustUpsert from_ to_ (Timestamped.mk date trust) db.trust_id_to_id
  { db with trust_id_to_id := m }

/-- `TrustDB::add_trust`. -/
def TrustDB.add_trust (db : TrustDB) (trust : TrustProof) : TrustDB :=
  let db := db.record_url_from_from_field trust.date trust.from_
  let db := trust.ids.foldl
    (fun db to_ => db.add_trust_raw trust.from_.id to_.id trust.date trust.trust) db
  trust.ids.foldl (fun db to_ => db.record_url_from_to_field trust.date to_) db

/-- `TrustDB::add_proof`.  The source first asserts `proof.verify()`; the
embedding's proof stream consists of already-verified proofs (section 6 of the
spec), so the dispatch on the content variant is all that remains. -/
def TrustDB.add_proof (db : TrustDB) (proof : Proof) : TrustDB :=
  match proof.content with
  | .Code review => db.add_code_review review
  | .Package review => db.add_package_review review proof.signature
  | .Trust trust => db.add_trust trust

/-- `TrustDB::import_from_iter`. -/
def TrustDB.import_from_iter (db : TrustDB) (proofs : List Proof) : TrustDB :=
  proofs.foldl TrustDB.add_proof db

/-- `TrustDB::lookup_url`: primary URL map takes precedence over the secondary
one. -/
def TrustDB.lookup_url (db : TrustDB) (id : Nat) : Option String :=
  (match alookup id db.url_by_id with
   | some u => some u
   | none => alookup id db.url_by_id_secondary).map Timestamped.value

/-- `TrustDB::get_reviews_of`. -/
def TrustDB.get_reviews_of (db : TrustDB) (digest : Nat) :
    Option (List (Nat × Timestamped Review)) :=
  alookup digest db.digest_to_reviews

/-- `TrustDB::verify_digest`: classify a digest given a trusted identity set.
The source iterates the intersection of the trust set with the reviewer set and
counts negative (`rating < Neutral`) and non-negative (`Neutral <= rating`)
reviews; the embedding counts via filters over the stored reviewer entries. -/
def TrustDB.verify_digest (db : TrustDB) (digest : Nat) (trust_set : List Nat) :
    VerificationStatus :=
  match db.get_reviews_of digest with
  | none => VerificationStatus.Unknown
  | some reviews =>
    let matching := reviews.filter (fun e => decide (e.1 ∈ trust_set))
    let trust_count :=
      (matching.filter (fun e => decide (Rating.Neutral ≤ e.2.value.rating))).length
    let distrust_count :=
      (matching.filter (fun e => decide (e.2.value.rating < Rating.Neutral))).length
    if distrust_count > 0 then VerificationStatus.Flagged
    else if trust_count > 0 then VerificationStatus.Verified
    else VerificationStatus.Unknown

/-- `TrustDB::get_package_review_count`.  The `(None, Some)` argument shape
panics in the source (`panic!("Wrong usage")`); the embedding returns `none`
for it and `some count` everywhere else. -/
def TrustDB.get_package_review_count (db : TrustDB) (source : String)
    (name version : Option String) : Option Nat :=
  match name, version with
  | some name, some version =>
    some (((alookup (source, name, version) db.package_reviews_by_version).getD []).length)
  | some name, none =>
    some (((alookup (source, name) db.package_reviews_by_name).getD []).length)
  | none, none =>
    some (((alookup source db.package_reviews_by_source).getD []).length)
  | none, some _ => none

/-- The signature set consulted by `get_package_reviews_for_package` for a
given argument shape; `none` models the `panic!("Wrong usage")` arm. -/
def TrustDB.sigsFor (db : TrustDB) (source : String) (name version : Option String) :
    Option (List String) :=
  match name, version with
  | some name, some version =>
    some ((alookup (source, name, version) db.package_reviews_by_version).getD [])
  | some name, none =>
    some ((alookup (source, name) db.package_reviews_by_name).getD [])
  | none, none =>
    some ((alookup source db.package_reviews_by_source).getD [])
  | none, some _ => none

/-- Materialize signatures through `package_review_by_signature`.  The source
indexes the map directly (`self.package_review_by_signature[signature]`), which
panics on a missing key; the embedding returns `none` in that case. -/
def TrustDB.materialize (db : TrustDB) : List String → Option (List PackageReview)
  | [] => some []
  | s :: rest =>
    match alookup s db.package_review_by_signature, db.materialize rest with
    | some r, some l => some (r :: l)
    | _, _ => none

/-- The comparison used by the source's `proofs.sort_by(|a, b|
a.date().cmp(&b.date()))`: ascending by review date.  Rust's `sort_by` is a
stable sort; the embedding uses (stable) insertion sort. -/
def dateLe (a b : PackageReview) : Prop := a.date ≤ b.date

instance : DecidableRel dateLe := fun a b => Nat.decLe a.date b.date

instance : IsTotal PackageReview dateLe := ⟨fun a b => Nat.le_total a.date b.date⟩

instance : IsTrans PackageReview dateLe := ⟨fun _ _ _ h h' => Nat.le_trans h h'⟩

/-- `TrustDB::get_package_reviews_for_package`: resolve signatures, materialize
each through the signature map, sort ascending by date (stably), and yield. -/
def TrustDB.get_package_reviews_for_package (db : TrustDB) (source : String)
    (name version : Option String) : Option (List PackageReview) :=
  match db.sigsFor source name version with
  | none => none
  | some sigs => (db.materialize sigs).map (List.insertionSort dateLe)

/-- `TrustDB::get_ids_trusted_by`: the outgoing trust edges of an identity, as
`(level, target)` pairs in the stored iteration order. -/
def TrustDB.get_ids_trusted_by (db : TrustDB) (id : Nat) : List (TrustLevel × Nat) :=
  ((alookup id db.trust_id_to_id).getD []).map (fun e => (e.2.value, e.1))

/-- `TrustDistanceParams` of trustdb.rs. -/
structure TrustDistanceParams where
  max_distance : Nat
  high_trust_distance : Nat
  medium_trust_distance : Nat
  low_trust_distance : Nat
deriving DecidableEq, Repr

/-- `TrustDistanceParams::distance_by_level`: `Distrust` and `None` edges do
not exist for traversal; `Low`, `Medium`, `High` map to their weights. -/
def TrustDistanceParams.distance_by_level (p : TrustDistanceParams) :
    TrustLevel → Option Nat
  | .Distrust => none
  | .None => none
  | .Low => some p.low_trust_distance
  | .Medium => some p.medium_trust_distance
  | .High => some p.high_trust_distance

/-- `Default for TrustDistanceParams`. -/
def TrustDistanceParams.default : TrustDistanceParams :=
  ⟨10, 0, 1, 5⟩

/-!
`TrustDB::calculate_trust_set` maintains a pending frontier (a `BTreeSet` of
`Visit { distance, id }`, ordered lexicographically by `(distance, id)`) and a
`visited` map from id to distance, extracting the minimum pending visit and
relaxing the extracted identity's outgoing edges until the frontier is empty.
The embedding models the frontier as an ascending duplicate-free list of
`(distance, id)` pairs and the visited map as an association list, and runs the
`while` loop on fuel; `tsFuel` below is proven sufficient to drain the frontier.
-/

/-- The state of the `calculate_trust_set` loop: the pending frontier (kept
ascending in `(distance, id)` order, without duplicates, like the source's
`BTreeSet<Visit>`) and the visited map `id -> distance`. -/
structure TSState where
  pending : List (Nat × Nat)
  visited : List (Nat × Nat)
deriving DecidableEq, Repr

/-- Insertion into the pending frontier, models `BTreeSet::insert` under the
derived lexicographic `(distance, id)` order of `Visit`. -/
def pinsert (x : Nat × Nat) : List (Nat × Nat) → List (Nat × Nat)
  | [] => [x]
  | y :: rest =>
    if x.1 < y.1 ∨ (x.1 = y.1 ∧ x.2 < y.2) then x :: y :: rest
    else if x = y then y :: rest
    else y :: pinsert x rest

/-- Insert-or-update on the visited association list, models
`HashMap::insert`. -/
def aset (k v : Nat) : List (Nat × Nat) → List (Nat × Nat)
  | [] => [(k, v)]
  | (k', v') :: rest =>
    if k = k' then (k, v) :: rest else (k', v') :: aset k v rest

/-- Relaxation of a single outgoing edge `(level, candidate)` from the current
visit at distance `d`: skip non-traversable levels, skip totals beyond
`max_distance`, and otherwise record and enqueue the candidate whenever it is
new or strictly improved (the body of the `for` loop of
`calculate_trust_set`). -/
def relaxOne (params : TrustDistanceParams) (d : Nat) (s : TSState)
    (e : TrustLevel × Nat) : TSState :=
  match params.distance_by_level e.1 with
  | none => s
  | some w =>
    let total := d + w
    if total > params.max_distance then s
    else
      match alookup e.2 s.visited with
      | some prev =>
        if prev > total then
          ⟨pinsert (total, e.2) s.pending, aset e.2 total s.visited⟩
        else s
      | none => ⟨pinsert (total, e.2) s.pending, aset e.2 total s.visited⟩

/-- One iteration of the `while let Some(current) = pending.iter().next()` loop
of `calculate_trust_set`: pop the minimum pending visit, skip it when a
strictly smaller distance for the same id is already recorded, and otherwise
relax all outgoing edges of the popped identity. -/
def tsStep (db : TrustDB) (params : TrustDistanceParams) (s : TSState) : TSState :=
  match s.pending with
  | [] => s
  | current :: rest =>
    let s' : TSState := ⟨rest, s.visited⟩
    let skip : Bool :=
      match alookup current.2 s.visited with
      | some vd => decide (vd < current.1)
      | none => false
    if skip then s'
    else (db.get_ids_trusted_by current.2).foldl (relaxOne params current.1) s'

/-- The `calculate_trust_set` loop, run on fuel.  `tsFuel` is proven
sufficient below (`tsLoop_pending_empty`). -/
def tsLoop (db : TrustDB) (params : TrustDistanceParams) : Nat → TSState → TSState
  | 0, s => s
  | n + 1, s =>
    match s.pending with
    | [] => s
    | _ :: _ => tsLoop db params n (tsStep db params s)

/-- The initial loop state: the root is pending and visited at distance 0. -/
def tsInit (for_id : Nat) : TSState :=
  ⟨[(0, for_id)], [(for_id, 0)]⟩

/-- All identities occurring as a target of some trust edge of the database:
together with the root these are the only identities the traversal can ever
enqueue. -/
def trustTargets (db : TrustDB) : List Nat :=
  db.trust_id_to_id.foldr (fun e acc => e.2.map Prod.fst ++ acc) []

/-- The finite universe of identities relevant to a traversal from `root`. -/
def tsUniverse (db : TrustDB) (root : Nat) : List Nat :=
  (root :: trustTargets db).dedup

/-- The contribution of one identity to the termination potential: its visited
distance, or `max_distance + 1` when unvisited. -/
def fval (md : Nat) (visited : List (Nat × Nat)) (v : Nat) : Nat :=
  match alookup v visited with
  | some d => d
  | none => md + 1

/-- The termination potential of a visited map: visited distances only ever
decrease, and each enqueue strictly decreases this sum. -/
def phi (db : TrustDB) (root : Nat) (md : Nat) (visited : List (Nat × Nat)) : Nat :=
  ((tsUniverse db root).map (fval md visited)).sum

/-- The loop measure: potential plus frontier size; strictly decreases at each
iteration with a non-empty frontier. -/
def mu (db : TrustDB) (root : Nat) (md : Nat) (s : TSState) : Nat :=
  phi db root md s.visited + s.pending.length

/-- Fuel sufficient to drain the frontier of `calculate_trust_set`. -/
def tsFuel (db : TrustDB) (root : Nat) (params : TrustDistanceParams) : Nat :=
  mu db root params.max_distance (tsInit root) + 1

/-- `TrustDB::calculate_trust_set`: the key set of the visited map once the
pending frontier has been drained. -/
def TrustDB.calculate_trust_set (db : TrustDB) (for_id : Nat)
    (params : TrustDistanceParams) : List Nat :=
  (tsLoop db params (tsFuel db for_id params) (tsInit for_id)).visited.map Prod.fst

/-- A trust path from `root`: the reflexive-transitive closure of the stored
trust edges restricted to traversable levels, with its total weight.  An edge
`u -> v` exists with weight `w` when `(level, v)` is among `u`'s stored
outgoing trust edges and `distance_by_level level = some w` (so `None` and
`Distrust` levels yield no edge). -/
inductive TrustPath (db : TrustDB) (params : TrustDistanceParams) (root : Nat) :
    Nat → Nat → Prop
  | nil : TrustPath db params root root 0
  | snoc {u c lvl v w} : TrustPath db params root u c →
      (lvl, v) ∈ db.get_ids_trusted_by u →
      params.distance_by_level lvl = some w →
      TrustPath db params root v (c + w)

/-! ### Basic lemmas about the association-list and set primitives -/

theorem alookup_mem {κ β : Type} [DecidableEq κ] {k : κ} {v : β}
    {m : List (κ × β)} (h : alookup k m = some v) : (k, v) ∈ m := by
  induction m with
  | nil => simp [alookup] at h
  | cons e rest ih =>
    obtain ⟨k', v'⟩ := e
    by_cases hk : k = k'
    · subst hk
      simp [alookup] at h
      simp [h]
    · simp [alookup, hk] at h
      exact List.mem_cons_of_mem _ (ih h)

theorem alookup_isSome_iff {κ β : Type} [DecidableEq κ] {k : κ}
    {m : List (κ × β)} : (alookup k m).isSome ↔ k ∈ m.map Prod.fst := by
  induction m with
  | nil => simp [alookup]
  | cons e rest ih =>
    obtain ⟨k', v'⟩ := e
    by_cases hk : k = k'
    · subst hk; simp [alookup]
    · simp [alookup, hk, ih, hk]

theorem mem_btreeInsert {x y : String} {l : List String} :
    y ∈ btreeInsert x l ↔ y = x ∨ y ∈ l := by
  induction l with
  | nil => simp [btreeInsert]
  | cons z rest ih =>
    by_cases h1 : strLtB x z = true
    · simp [btreeInsert, h1, List.mem_cons]
    · by_cases h2 : x = z
      · subst h2
        simp only [btreeInsert, Bool.not_eq_true] at h1 ⊢
        simp only [h1, Bool.false_eq_true, if_false, eq_self_iff_true, if_true,
          List.mem_cons]
        tauto
      · simp only [btreeInsert, Bool.not_eq_true] at h1 ⊢
        simp only [h1, Bool.false_eq_true, if_false, if_neg h2, List.mem_cons, ih]
        tauto

theorem length_filter_pos_iff {α : Type} (l : List α) (p : α → Bool) :
    0 < (l.filter p).length ↔ ∃ a ∈ l, p a = true := by
  rw [List.length_pos, Ne, List.filter_eq_nil_iff]
  push_neg
  simp

/-! ### C1: the latest-wins rule and `update_to_more_recent` -/

/-- The three trust proofs of the C1 failing input: author 1 states trust in
subject 2 at timestamps 1 (Low), 3 (High) and 2 (Medium), in that order. -/
def c1Proofs : List Proof :=
  [⟨"s1", Content.Trust ⟨⟨1, "ua"⟩, 1, [⟨2, "ub"⟩], TrustLevel.Low⟩⟩,
   ⟨"s2", Content.Trust ⟨⟨1, "ua"⟩, 3, [⟨2, "ub"⟩], TrustLevel.High⟩⟩,
   ⟨"s3", Content.Trust ⟨⟨1, "ua"⟩, 2, [⟨2, "ub"⟩], TrustLevel.Medium⟩⟩]

/-- C1: the claim fails on the code.  `Timestamped::update_to_more_recent`
replaces the stored value when the incoming date is newer but never updates the
stored date, so after ingesting trust proofs (t=1, Low), (t=3, High),
(t=2, Medium) for the same (author, subject) pair, the stored entry is
`(timestamp 1, Medium)`: the t=2 proof overwrites the t=3 value because the
comparison is still made against the original date 1.  The claim requires the
pair with the maximum timestamp, `(3, High)`. -/
theorem crev_C1_code_behavior :
    alookup 2 ((alookup 1
        (TrustDB.new.import_from_iter c1Proofs).trust_id_to_id).getD []) =
      some (Timestamped.mk 1 TrustLevel.Medium) ∧
    TrustLevel.Medium ≠ TrustLevel.High ∧
    (1 : Nat) ≠ 3 := by
  refine ⟨rfl, by decide, by decide⟩

/-! ### C3: `verify_digest` -/

/-- Some stored reviewer of `digest` is in the trust set and rated it strictly
below `Neutral`. -/
def HasNegReview (db : TrustDB) (digest : Nat) (ts : List Nat) : Prop :=
  ∃ reviews, db.get_reviews_of digest = some reviews ∧
    ∃ e ∈ reviews, e.1 ∈ ts ∧ e.2.value.rating < Rating.Neutral

/-- Some stored reviewer of `digest` is in the trust set and rated it
`Neutral` or above. -/
def HasPosReview (db : TrustDB) (digest : Nat) (ts : List Nat) : Prop :=
  ∃ reviews, db.get_reviews_of digest = some reviews ∧
    ∃ e ∈ reviews, e.1 ∈ ts ∧ Rating.Neutral ≤ e.2.value.rating

/-- C3: `verify_digest` returns `Flagged` exactly when at least one trusted
reviewer's stored review of the digest is rated strictly below `Neutral`
(regardless of any non-negative reviews); otherwise `Verified` exactly when at
least one trusted reviewer's stored review is rated `Neutral` or above; and
`Unknown` otherwise — in particular when the digest has no reviewers at all. -/
theorem crev_C3 (db : TrustDB) (digest : Nat) (ts : List Nat) :
    (db.verify_digest digest ts = VerificationStatus.Flagged ↔
      HasNegReview db digest ts) ∧
    (db.verify_digest digest ts = VerificationStatus.Verified ↔
      (¬ HasNegReview db digest ts ∧ HasPosReview db digest ts)) ∧
    (db.get_reviews_of digest = none →
      db.verify_digest digest ts = VerificationStatus.Unknown) ∧
    (¬ HasNegReview db digest ts → ¬ HasPosReview db digest ts →
      db.verify_digest digest ts = VerificationStatus.Unknown) := by
  unfold TrustDB.verify_digest HasNegReview HasPosReview
  cases h : db.get_reviews_of digest with
  | none => simp
  | some reviews =>
    simp only [h, Option.some.injEq]
    have hneg : (0 < ((reviews.filter (fun e => decide (e.1 ∈ ts))).filter
        (fun e => decide (e.2.value.rating < Rating.Neutral))).length) ↔
        ∃ e ∈ reviews, e.1 ∈ ts ∧ e.2.value.rating < Rating.Neutral := by
      rw [length_filter_pos_iff]
      constructor
      · rintro ⟨a, ha, hp⟩
        rw [List.mem_filter] at ha
        exact ⟨a, ha.1, by simpa using ha.2, by simpa using hp⟩
      · rintro ⟨a, ha, h1, h2⟩
        exact ⟨a, List.mem_filter.2 ⟨ha, by simpa using h1⟩, by simpa using h2⟩
    have hpos : (0 < ((reviews.filter (fun e => decide (e.1 ∈ ts))).filter
        (fun e => decide (Rating.Neutral ≤ e.2.value.rating))).length) ↔
        ∃ e ∈ reviews, e.1 ∈ ts ∧ Rating.Neutral ≤ e.2.value.rating := by
      rw [length_filter_pos_iff]
      constructor
      · rintro ⟨a, ha, hp⟩
        rw [List.mem_filter] at ha
        exact ⟨a, ha.1, by simpa using ha.2, by simpa using hp⟩
      · rintro ⟨a, ha, h1, h2⟩
        exact ⟨a, List.mem_filter.2 ⟨ha, by simpa using h1⟩, by simpa using h2⟩
    by_cases hn : ∃ e ∈ reviews, e.1 ∈ ts ∧ e.2.value.rating < Rating.Neutral
    · rw [if_pos (by simpa [gt_iff_lt] using hneg.2 hn)]
      refine ⟨by simpa using hn, ?_, by simp, ?_⟩
      · constructor
        · intro hcontra; cases hcontra
        · rintro ⟨hnot, -⟩
          exact absurd ⟨reviews, rfl, hn⟩ hnot
      · intro hnot
        exact absurd ⟨reviews, rfl, hn⟩ hnot
    · rw [if_neg (by simpa [gt_iff_lt] using (not_iff_not.2 hneg).2 hn)]
      by_cases hp : ∃ e ∈ reviews, e.1 ∈ ts ∧ Rating.Neutral ≤ e.2.value.rating
      · rw [if_pos (by simpa [gt_iff_lt] using hpos.2 hp)]
        refine ⟨?_, ?_, by simp, ?_⟩
        · constructor
          · intro hcontra; cases hcontra
          · rintro ⟨revs, hrevs, hex⟩
            cases hrevs
            exact absurd hex hn
        · constructor
          · intro _
            refine ⟨?_, reviews, rfl, hp⟩
            rintro ⟨revs, hrevs, hex⟩
            cases hrevs
            exact absurd hex hn
          · intro _; rfl
        · intro _ hnot
          exact absurd ⟨reviews, rfl, hp⟩ hnot
      · rw [if_neg (by simpa [gt_iff_lt] using (not_iff_not.2 hpos).2 hp)]
        refine ⟨?_, ?_, by simp, ?_⟩
        · constructor
          · intro hcontra; cases hcontra
          · rintro ⟨revs, hrevs, hex⟩
            cases hrevs
            exact absurd hex hn
        · constructor
          · intro hcontra; cases hcontra
          · rintro ⟨-, revs, hrevs, hex⟩
            cases hrevs
            exact absurd hex hp
        · intro _ _; rfl

/-- Witness for C3: on the empty database every digest verifies as
`Unknown`. -/
theorem crev_C3_witness :
    TrustDB.new.verify_digest 0 [] = VerificationStatus.Unknown :=
  (crev_C3 TrustDB.new 0 []).2.2.1 rfl

/-! ### Idempotence lemmas for C6 -/

theorem update_to_more_recent_idem {T : Type} (t : Timestamped T) (d : Nat) (v : T) :
    (t.update_to_more_recent d v).update_to_more_recent d v =
      t.update_to_more_recent d v := by
  unfold Timestamped.update_to_more_recent
  by_cases h : t.date < d <;> simp [h]

theorem insert_into_idem {κ T : Type} [DecidableEq κ] (incoming : Timestamped T)
    (k : κ) (m : List (κ × Timestamped T)) :
    incoming.insert_into_or_update_to_more_recent k
        (incoming.insert_into_or_update_to_more_recent k m) =
      incoming.insert_into_or_update_to_more_recent k m := by
  induction m with
  | nil =>
    simp [Timestamped.insert_into_or_update_to_more_recent,
      Timestamped.update_to_more_recent]
  | cons e rest ih =>
    obtain ⟨k', t⟩ := e
    by_cases hk : k = k'
    · subst hk
      simp [Timestamped.insert_into_or_update_to_more_recent,
        update_to_more_recent_idem]
    · simp [Timestamped.insert_into_or_update_to_more_recent, hk, ih]

theorem alookup_append_self {κ β : Type} [DecidableEq κ] {k : κ} (v : β)
    {m : List (κ × β)} (h : alookup k m = none) :
    alookup k (m ++ [(k, v)]) = some v := by
  induction m with
  | nil => simp [alookup]
  | cons e rest ih =>
    obtain ⟨k', v'⟩ := e
    by_cases hk : k = k'
    · simp [alookup, hk] at h
    · simp only [alookup, hk, if_neg hk] at h ⊢
      exact ih h

theorem orInsert_idem {κ β : Type} [DecidableEq κ] (k : κ) (v : β)
    (m : List (κ × β)) : orInsert k v (orInsert k v m) = orInsert k v m := by
  unfold orInsert
  cases h : alookup k m with
  | some v' => simp [h]
  | none => simp [alookup_append_self v h]

theorem orInsert_preserves {κ β : Type} [DecidableEq κ] {k : κ} {v0 : β}
    (v : β) {m : List (κ × β)} (h : alookup k m = some v0) :
    alookup k (orInsert k v m) = some v0 := by
  unfold orInsert
  rw [h]
  exact h

theorem charsLtB_self (l : List Char) : charsLtB l l = false := by
  induction l with
  | nil => rfl
  | cons a rest ih => simp [charsLtB, Nat.lt_irrefl, ih]

theorem strLtB_self (x : String) : strLtB x x = false := charsLtB_self x.data

theorem btreeInsert_idem (x : String) (l : List String) :
    btreeInsert x (btreeInsert x l) = btreeInsert x l := by
  induction l with
  | nil => simp [btreeInsert, strLtB_self]
  | cons y rest ih =>
    by_cases h1 : strLtB x y = true
    · simp [btreeInsert, h1, strLtB_self]
    · rw [Bool.not_eq_true] at h1
      by_cases h2 : x = y
      · subst h2
        rw [btreeInsert, if_neg (by simp [h1]), if_pos rfl]
        rw [btreeInsert, if_neg (by simp [strLtB_self]), if_pos rfl]
      · rw [btreeInsert, if_neg (by simp [h1]), if_neg h2]
        rw [btreeInsert, if_neg (by simp [h1]), if_neg h2, ih]

theorem mapSetInsert_idem {κ : Type} [DecidableEq κ] (k : κ) (sig : String)
    (m : List (κ × List String)) :
    mapSetInsert k sig (mapSetInsert k sig m) = mapSetInsert k sig m := by
  induction m with
  | nil => simp [mapSetInsert, btreeInsert_idem]
  | cons e rest ih =>
    obtain ⟨k', s⟩ := e
    by_cases hk : k = k'
    · subst hk
      simp [mapSetInsert, btreeInsert_idem]
    · simp [mapSetInsert, hk, ih]

theorem digestReviewUpsert_idem (digest who : Nat) (incoming : Timestamped Review)
    (m : List (Nat × List (Nat × Timestamped Review))) :
    digestReviewUpsert digest who incoming (digestReviewUpsert digest who incoming m) =
      digestReviewUpsert digest who incoming m := by
  induction m with
  | nil =>
    simp [digestReviewUpsert, Timestamped.insert_into_or_update_to_more_recent,
      Timestamped.update_to_more_recent]
  | cons e rest ih =>
    obtain ⟨d, inner⟩ := e
    by_cases hd : digest = d
    · subst hd
      simp [digestReviewUpsert, insert_into_idem]
    · simp [digestReviewUpsert, hd, ih]

/-- C6: ingesting the identical package-review proof a second time is a no-op
on the whole database state, and the signature index is write-once (the first
review stored for a signature is retained by later insertions). -/
theorem crev_C6 (db : TrustDB) (r : PackageReview) (sig : String) :
    ((db.add_proof ⟨sig, Content.Package r⟩).add_proof ⟨sig, Content.Package r⟩ =
      db.add_proof ⟨sig, Content.Package r⟩) ∧
    (∀ r0, alookup sig db.package_review_by_signature = some r0 →
      alookup sig (db.add_proof ⟨sig, Content.Package r⟩).package_review_by_signature =
        some r0) := by
  constructor
  · show (db.add_package_review r sig).add_package_review r sig =
      db.add_package_review r sig
    unfold TrustDB.add_package_review TrustDB.record_url_from_from_field
    simp only [insert_into_idem, orInsert_idem, mapSetInsert_idem,
      digestReviewUpsert_idem]
  · intro r0 h
    show alookup sig (db.add_package_review r sig).package_review_by_signature = some r0
    unfold TrustDB.add_package_review TrustDB.record_url_from_from_field
    exact orInsert_preserves r h

/-- Witness for C6: the write-once conjunct at a concrete database that already
holds a review under the signature. -/
theorem crev_C6_witness :
    alookup "s"
        ((TrustDB.new.add_proof
            ⟨"s", Content.Package ⟨⟨1, "u1"⟩, 4, ⟨"src", "n", "v", 7⟩, ⟨Rating.Positive⟩⟩⟩).add_proof
          ⟨"s", Content.Package ⟨⟨2, "u2"⟩, 9, ⟨"src", "n", "v", 7⟩, ⟨Rating.Negative⟩⟩⟩).package_review_by_signature =
      some ⟨⟨1, "u1"⟩, 4, ⟨"src", "n", "v", 7⟩, ⟨Rating.Positive⟩⟩ :=
  (crev_C6 (TrustDB.new.add_proof
      ⟨"s", Content.Package ⟨⟨1, "u1"⟩, 4, ⟨"src", "n", "v", 7⟩, ⟨Rating.Positive⟩⟩⟩)
    ⟨⟨2, "u2"⟩, 9, ⟨"src", "n", "v", 7⟩, ⟨Rating.Negative⟩⟩ "s").2
    ⟨⟨1, "u1"⟩, 4, ⟨"src", "n", "v", 7⟩, ⟨Rating.Positive⟩⟩ rfl

/-! ### C7: URL lookup precedence -/

/-- C7: after ingesting any sequence of proofs, `lookup_url` returns the
primary URL whenever a primary entry exists for the id (even when a secondary
entry exists as well), and falls back to the secondary map only when no
primary entry exists. -/
theorem crev_C7 (proofs : List Proof) (id : Nat) :
    (∀ u, alookup id (TrustDB.new.import_from_iter proofs).url_by_id = some u →
      (TrustDB.new.import_from_iter proofs).lookup_url id = some u.value) ∧
    (alookup id (TrustDB.new.import_from_iter proofs).url_by_id = none →
      (TrustDB.new.import_from_iter proofs).lookup_url id =
        (alookup id (TrustDB.new.import_from_iter proofs).url_by_id_secondary).map
          Timestamped.value) := by
  constructor
  · intro u h
    unfold TrustDB.lookup_url
    rw [h]
    rfl
  · intro h
    unfold TrustDB.lookup_url
    rw [h]

/-- Witness for C7: author 3 names id 1 in a trust proof (secondary URL
"sec1"), and id 1 later authors its own proof (primary URL "pri1"); the lookup
returns the primary URL. -/
theorem crev_C7_witness :
    (TrustDB.new.import_from_iter
        [⟨"t1", Content.Trust ⟨⟨3, "u3"⟩, 1, [⟨1, "sec1"⟩], TrustLevel.High⟩⟩,
         ⟨"t2", Content.Trust ⟨⟨1, "pri1"⟩, 2, [⟨2, "u2"⟩], TrustLevel.Low⟩⟩]).lookup_url
        1 = some "pri1" :=
  (crev_C7
      [⟨"t1", Content.Trust ⟨⟨3, "u3"⟩, 1, [⟨1, "sec1"⟩], TrustLevel.High⟩⟩,
       ⟨"t2", Content.Trust ⟨⟨1, "pri1"⟩, 2, [⟨2, "u2"⟩], TrustLevel.Low⟩⟩] 1).1
    (Timestamped.mk 2 "pri1") rfl

/-! ### C8: review counts -/

theorem materialize_length {db : TrustDB} : ∀ {sigs : List String}
    {l : List PackageReview}, db.materialize sigs = some l → l.length = sigs.length := by
  intro sigs
  induction sigs with
  | nil =>
    intro l h
    simp [TrustDB.materialize] at h
    simp [← h]
  | cons s rest ih =>
    intro l h
    unfold TrustDB.materialize at h
    cases h1 : alookup s db.package_review_by_signature with
    | none => rw [h1] at h; cases h
    | some r =>
      rw [h1] at h
      cases h2 : db.materialize rest with
      | none => rw [h2] at h; cases h
      | some l0 =>
        rw [h2] at h
        cases h
        simp [ih h2]

/-- C8: `get_package_review_count` returns the size of the signature set under
the matching key of the corresponding secondary index (0 when no key exists,
via the empty default), agrees with the length of the enumeration returned by
`get_package_reviews_for_package`, and the `(source, None, Some)` argument
shape is the one illegal call (a panic in the source, `none` in the
embedding); all other shapes are total. -/
theorem crev_C8 (db : TrustDB) (source n v : String) :
    (db.get_package_review_count source none (some v) = none) ∧
    (db.get_package_review_count source (some n) (some v) =
      some ((alookup (source, n, v) db.package_reviews_by_version).getD []).length) ∧
    (db.get_package_review_count source (some n) none =
      some ((alookup (source, n) db.package_reviews_by_name).getD []).length) ∧
    (db.get_package_review_count source none none =
      some ((alookup source db.package_reviews_by_source).getD []).length) ∧
    (alookup (source, n, v) db.package_reviews_by_version = none →
      db.get_package_review_count source (some n) (some v) = some 0) ∧
    (∀ l, db.get_package_reviews_for_package source (some n) (some v) = some l →
      db.get_package_review_count source (some n) (some v) = some l.length) := by
  refine ⟨rfl, rfl, rfl, rfl, ?_, ?_⟩
  · intro h
    have hc : db.get_package_review_count source (some n) (some v) =
        some (((alookup (source, n, v) db.package_reviews_by_version).getD []).length) :=
      rfl
    rw [hc, h]
    rfl
  · intro l h
    have hq : db.get_package_reviews_for_package source (some n) (some v) =
        (db.materialize
            ((alookup (source, n, v) db.package_reviews_by_version).getD [])).map
          (List.insertionSort dateLe) := rfl
    rw [hq] at h
    cases hm : db.materialize
        ((alookup (source, n, v) db.package_reviews_by_version).getD []) with
    | none => rw [hm] at h; cases h
    | some l0 =>
      rw [hm] at h
      have h2 : List.insertionSort dateLe l0 = l := Option.some.inj h
      subst h2
      have hc : db.get_package_review_count source (some n) (some v) =
          some (((alookup (source, n, v) db.package_reviews_by_version).getD []).length) :=
        rfl
      rw [hc, List.length_insertionSort, materialize_length hm]

/-- Witness for C8: the count after the illegal-shape guard on the empty
database, and the count/enumeration agreement on the empty database. -/
theorem crev_C8_witness :
    TrustDB.new.get_package_review_count "s" (some "n") (some "v") = some 0 :=
  (crev_C8 TrustDB.new "s" "n" "v").2.2.2.2.1 rfl

/-! ### C4: enumeration order of package reviews -/

theorem filter_orderedInsert_date (d : Nat) (a : PackageReview)
    (l : List PackageReview) :
    (l.orderedInsert dateLe a).filter (fun x => decide (x.date = d)) =
      if a.date = d then a :: l.filter (fun x => decide (x.date = d))
      else l.filter (fun x => decide (x.date = d)) := by
  induction l with
  | nil =>
    simp only [List.orderedInsert]
    by_cases h : a.date = d <;> simp [List.filter, h]
  | cons b l ih =>
    simp only [List.orderedInsert]
    by_cases hab : dateLe a b
    · rw [if_pos hab, List.filter_cons]
      by_cases h : a.date = d
      · rw [if_pos h, List.filter_cons]
        by_cases hb : b.date = d <;> simp [h, hb]
      · rw [if_neg h, List.filter_cons]
        by_cases hb : b.date = d <;> simp [h, hb]
    · rw [if_neg hab]
      by_cases h : a.date = d
      · have hb : ¬ b.date = d := by
          intro hbd
          exact hab (show a.date ≤ b.date by rw [h, hbd])
        rw [if_pos h, List.filter_cons, if_neg (by simp [hb]), ih, if_pos h,
          List.filter_cons, if_neg (by simp [hb])]
      · rw [if_neg h, List.filter_cons, ih, if_neg h, List.filter_cons]

theorem filter_insertionSort_date (d : Nat) (l : List PackageReview) :
    (List.insertionSort dateLe l).filter (fun x => decide (x.date = d)) =
      l.filter (fun x => decide (x.date = d)) := by
  induction l with
  | nil => rfl
  | cons a l ih =>
    rw [List.insertionSort, filter_orderedInsert_date, ih, List.filter_cons]
    by_cases h : a.date = d <;> simp [h]

/-- The first package review of the C4 counterexample, ingested first, under
signature "b". -/
def c4pb : PackageReview := ⟨⟨10, "u10"⟩, 5, ⟨"crates", "foo", "1.0", 77⟩, ⟨Rating.Positive⟩⟩

/-- The second package review of the C4 counterexample, ingested second, under
signature "a", with the same timestamp as the first. -/
def c4pa : PackageReview := ⟨⟨11, "u11"⟩, 5, ⟨"crates", "foo", "1.0", 77⟩, ⟨Rating.Negative⟩⟩

/-- The C4 counterexample database: signature "b" is inserted before
signature "a", both reviews carrying the same timestamp 5. -/
def c4db : TrustDB :=
  TrustDB.new.import_from_iter
    [⟨"b", Content.Package c4pb⟩, ⟨"a", Content.Package c4pa⟩]

/-- Counterexample to C4 as stated: both reviews carry timestamp 5 and the
signatures were inserted in the order "b", "a", so yielding "reviews with
equal timestamps in signature-insertion order" would produce `[c4pb, c4pa]`;
the code instead yields `[c4pa, c4pb]`, the ascending lexicographic signature
order of the stored `BTreeSet`. -/
theorem crev_C4_counterexample :
    c4db.get_package_reviews_for_package "crates" (some "foo") (some "1.0") =
      some [c4pa, c4pb] ∧
    ([c4pa, c4pb] : List PackageReview) ≠ [c4pb, c4pa] := by
  refine ⟨rfl, by decide⟩

/-- C4 (amended): `get_package_reviews_for_package` yields the package reviews
resolved through the matching signature index, sorted ascending by the
review's timestamp; reviews with equal timestamps are yielded in the signature
set's own iteration order (ascending lexicographic signature order) — the sort
is stable with respect to that order, not with respect to signature-insertion
order. -/
theorem crev_C4 (db : TrustDB) (source : String) (name version : Option String)
    (sigs : List String) (input : List PackageReview)
    (hs : db.sigsFor source name version = some sigs)
    (hm : db.materialize sigs = some input) :
    db.get_package_reviews_for_package source name version =
      some (List.insertionSort dateLe input) ∧
    (List.insertionSort dateLe input).Perm input ∧
    List.Sorted dateLe (List.insertionSort dateLe input) ∧
    ∀ d, (List.insertionSort dateLe input).filter (fun x => decide (x.date = d)) =
      input.filter (fun x => decide (x.date = d)) := by
  refine ⟨?_, List.perm_insertionSort dateLe input,
    List.sorted_insertionSort dateLe input, fun d => filter_insertionSort_date d input⟩
  unfold TrustDB.get_package_reviews_for_package
  rw [hs]
  show Option.map (List.insertionSort dateLe) (db.materialize sigs) =
    some (List.insertionSort dateLe input)
  rw [hm]
  rfl

/-- Witness for C4 at the counterexample database: the signature set iterates
as ["a", "b"], the materialization is `[c4pa, c4pb]`, and the enumeration is
its (stable) insertion sort by date. -/
theorem crev_C4_witness :
    c4db.get_package_reviews_for_package "crates" (some "foo") (some "1.0") =
      some (List.insertionSort dateLe [c4pa, c4pb]) :=
  (crev_C4 c4db "crates" (some "foo") (some "1.0") ["a", "b"] [c4pa, c4pb]
    rfl rfl).1

/-! ### C10: every indexed signature resolves through the signature map -/

/-- Every signature contained in one of the three secondary indices is a key
of `package_review_by_signature`. -/
def SigInv (db : TrustDB) : Prop :=
  ∀ sig : String,
    ((∃ e ∈ db.package_reviews_by_source, sig ∈ e.2) ∨
     (∃ e ∈ db.package_reviews_by_name, sig ∈ e.2) ∨
     (∃ e ∈ db.package_reviews_by_version, sig ∈ e.2)) →
    (alookup sig db.package_review_by_signature).isSome = true

/-- The signature-related fields of the database; every proof-ingestion step
other than `add_package_review` leaves them untouched. -/
def sigPart (db : TrustDB) :
    List (String × PackageReview) × List (String × List String) ×
      List ((String × String) × List String) ×
      List ((String × String × String) × List String) :=
  (db.package_review_by_signature, db.package_reviews_by_source,
    db.package_reviews_by_name, db.package_reviews_by_version)

theorem foldl_preserve {α β γ : Type} (p : β → γ) (f : β → α → β)
    (h : ∀ b a, p (f b a) = p b) : ∀ (l : List α) (b), p (l.foldl f b) = p b := by
  intro l
  induction l with
  | nil => intro b; rfl
  | cons a rest ih =>
    intro b
    rw [List.foldl_cons, ih, h]

theorem sigPart_foldl_code (r : CodeReview) : ∀ (l : List FileEntry) (b : TrustDB),
    sigPart (l.foldl (fun db file =>
      let m := digestReviewUpsert file.digest r.from_.id
        (Timestamped.mk r.date r.review) db.digest_to_reviews
      { db with digest_to_reviews := m }) b) = sigPart b := by
  intro l
  induction l with
  | nil => intro b; rfl
  | cons a rest ih =>
    intro b
    rw [List.foldl_cons, ih]
    rfl

theorem sigPart_foldl_trust_raw (t : TrustProof) : ∀ (l : List PubId) (b : TrustDB),
    sigPart (l.foldl
      (fun db to_ => db.add_trust_raw t.from_.id to_.id t.date t.trust) b) =
    sigPart b := by
  intro l
  induction l with
  | nil => intro b; rfl
  | cons a rest ih =>
    intro b
    rw [List.foldl_cons, ih]
    rfl

theorem sigPart_foldl_to_url (t : TrustProof) : ∀ (l : List PubId) (b : TrustDB),
    sigPart (l.foldl (fun db to_ => db.record_url_from_to_field t.date to_) b) =
    sigPart b := by
  intro l
  induction l with
  | nil => intro b; rfl
  | cons a rest ih =>
    intro b
    rw [List.foldl_cons, ih]
    rfl

theorem sigPart_add_code (db : TrustDB) (r : CodeReview) :
    sigPart (db.add_code_review r) = sigPart db :=
  sigPart_foldl_code r r.files (db.record_url_from_from_field r.date r.from_)

theorem sigPart_add_trust (db : TrustDB) (t : TrustProof) :
    sigPart (db.add_trust t) = sigPart db :=
  (sigPart_foldl_to_url t t.ids _).trans (sigPart_foldl_trust_raw t t.ids _)

theorem mapSetInsert_mem {κ : Type} [DecidableEq κ] {k : κ} {s sig : String} :
    ∀ {m : List (κ × List String)},
    (∃ e ∈ mapSetInsert k s m, sig ∈ e.2) → sig = s ∨ ∃ e ∈ m, sig ∈ e.2 := by
  intro m
  induction m with
  | nil =>
    rintro ⟨e, he, hs⟩
    simp only [mapSetInsert, List.mem_singleton] at he
    subst he
    rcases mem_btreeInsert.1 hs with h | h
    · exact Or.inl h
    · cases h
  | cons p rest ih =>
    obtain ⟨p0, inner⟩ := p
    rintro ⟨e, he, hs⟩
    by_cases hk : k = p0
    · subst hk
      simp only [mapSetInsert, eq_self_iff_true, if_true, List.mem_cons] at he
      rcases he with he | he
      · subst he
        rcases mem_btreeInsert.1 hs with h | h
        · exact Or.inl h
        · exact Or.inr ⟨(k, inner), List.mem_cons_self _ _, h⟩
      · exact Or.inr ⟨e, List.mem_cons_of_mem _ he, hs⟩
    · simp only [mapSetInsert, if_neg hk, List.mem_cons] at he
      rcases he with he | he
      · subst he
        exact Or.inr ⟨(p0, inner), List.mem_cons_self _ _, hs⟩
      · rcases ih ⟨e, he, hs⟩ with h | ⟨e', he', hs'⟩
        · exact Or.inl h
        · exact Or.inr ⟨e', List.mem_cons_of_mem _ he', hs'⟩

theorem alookup_append_left {κ β : Type} [DecidableEq κ] {k : κ} {v : β}
    {m l : List (κ × β)} (h : alookup k m = some v) :
    alookup k (m ++ l) = some v := by
  induction m with
  | nil => cases h
  | cons e rest ih =>
    obtain ⟨k', v'⟩ := e
    by_cases hk : k = k'
    · subst hk
      simp [alookup] at h ⊢
      exact h
    · simp only [List.cons_append, alookup, if_neg hk] at h ⊢
      exact ih h

theorem alookup_orInsert_isSome {κ β : Type} [DecidableEq κ] {k' k : κ} {v : β}
    {m : List (κ × β)} (h : (alookup k' m).isSome = true) :
    (alookup k' (orInsert k v m)).isSome = true := by
  unfold orInsert
  cases hm : alookup k m with
  | some w => exact h
  | none =>
    cases hl : alookup k' m with
    | none => rw [hl] at h; cases h
    | some w => rw [alookup_append_left hl]; rfl

theorem alookup_orInsert_self_isSome {κ β : Type} [DecidableEq κ] {k : κ} (v : β)
    (m : List (κ × β)) : (alookup k (orInsert k v m)).isSome = true := by
  unfold orInsert
  cases hm : alookup k m with
  | some w => rw [hm]; rfl
  | none => rw [alookup_append_self v hm]; rfl

theorem sigInv_add_proof {db : TrustDB} (h : SigInv db) (p : Proof) :
    SigInv (db.add_proof p) := by
  unfold TrustDB.add_proof
  cases p with
  | mk signature content =>
    cases content with
    | Code r =>
      intro sig hmem
      have hsp := sigPart_add_code db r
      unfold sigPart at hsp
      have h1 : (db.add_code_review r).package_review_by_signature =
          db.package_review_by_signature := congrArg (fun q => q.1) hsp
      have h2 : (db.add_code_review r).package_reviews_by_source =
          db.package_reviews_by_source := congrArg (fun q => q.2.1) hsp
      have h3 : (db.add_code_review r).package_reviews_by_name =
          db.package_reviews_by_name := congrArg (fun q => q.2.2.1) hsp
      have h4 : (db.add_code_review r).package_reviews_by_version =
          db.package_reviews_by_version := congrArg (fun q => q.2.2.2) hsp
      rw [h1]
      rw [h2, h3, h4] at hmem
      exact h sig hmem
    | Trust t =>
      intro sig hmem
      have hsp := sigPart_add_trust db t
      unfold sigPart at hsp
      have h1 : (db.add_trust t).package_review_by_signature =
          db.package_review_by_signature := congrArg (fun q => q.1) hsp
      have h2 : (db.add_trust t).package_reviews_by_source =
          db.package_reviews_by_source := congrArg (fun q => q.2.1) hsp
      have h3 : (db.add_trust t).package_reviews_by_name =
          db.package_reviews_by_name := congrArg (fun q => q.2.2.1) hsp
      have h4 : (db.add_trust t).package_reviews_by_version =
          db.package_reviews_by_version := congrArg (fun q => q.2.2.2) hsp
      rw [h1]
      rw [h2, h3, h4] at hmem
      exact h sig hmem
    | Package r =>
      intro sig hmem
      have hsig : (db.add_package_review r signature).package_review_by_signature =
          orInsert signature r db.package_review_by_signature := rfl
      have hsrc : (db.add_package_review r signature).package_reviews_by_source =
          mapSetInsert r.package.source signature db.package_reviews_by_source := rfl
      have hname : (db.add_package_review r signature).package_reviews_by_name =
          mapSetInsert (r.package.source, r.package.name) signature
            db.package_reviews_by_name := rfl
      have hver : (db.add_package_review r signature).package_reviews_by_version =
          mapSetInsert (r.package.source, r.package.name, r.package.version) signature
            db.package_reviews_by_version := rfl
      rw [hsig]
      rw [hsrc, hname, hver] at hmem
      have hcases : sig = signature ∨
          ((∃ e ∈ db.package_reviews_by_source, sig ∈ e.2) ∨
           (∃ e ∈ db.package_reviews_by_name, sig ∈ e.2) ∨
           (∃ e ∈ db.package_reviews_by_version, sig ∈ e.2)) := by
        rcases hmem with hm | hm | hm
        · rcases mapSetInsert_mem hm with h' | h'
          · exact Or.inl h'
          · exact Or.inr (Or.inl h')
        · rcases mapSetInsert_mem hm with h' | h'
          · exact Or.inl h'
          · exact Or.inr (Or.inr (Or.inl h'))
        · rcases mapSetInsert_mem hm with h' | h'
          · exact Or.inl h'
          · exact Or.inr (Or.inr (Or.inr h'))
      rcases hcases with rfl | hold
      · exact alookup_orInsert_self_isSome r db.package_review_by_signature
      · exact alookup_orInsert_isSome (h sig hold)

theorem sigInv_import (proofs : List Proof) :
    SigInv (TrustDB.new.import_from_iter proofs) := by
  have hstep : ∀ (l : List Proof) (db : TrustDB), SigInv db →
      SigInv (l.foldl TrustDB.add_proof db) := by
    intro l
    induction l with
    | nil => intro db h; exact h
    | cons p rest ih =>
      intro db h
      rw [List.foldl_cons]
      exact ih _ (sigInv_add_proof h p)
  refine hstep proofs TrustDB.new ?_
  intro sig hmem
  rcases hmem with ⟨e, he, _⟩ | ⟨e, he, _⟩ | ⟨e, he, _⟩ <;> cases he

theorem materialize_isSome {db : TrustDB} : ∀ {sigs : List String},
    (∀ s ∈ sigs, (alookup s db.package_review_by_signature).isSome = true) →
    (db.materialize sigs).isSome = true := by
  intro sigs
  induction sigs with
  | nil => intro _; rfl
  | cons s rest ih =>
    intro h
    unfold TrustDB.materialize
    cases h1 : alookup s db.package_review_by_signature with
    | none =>
      have := h s (List.mem_cons_self _ _)
      rw [h1] at this
      cases this
    | some r =>
      have hrest := ih (fun s' hs' => h s' (List.mem_cons_of_mem _ hs'))
      cases h2 : db.materialize rest with
      | none => rw [h2] at hrest; cases hrest
      | some l => rfl

/-- C10: in every database state reachable from the empty database through
`import_from_iter` / `add_proof`, every signature stored in any of the three
secondary indices is a key of `package_review_by_signature`, so the direct
map indexing done by `get_package_reviews_for_package` never fails: all three
legal query shapes return `some`. -/
theorem crev_C10 (proofs : List Proof) (source n v : String) :
    SigInv (TrustDB.new.import_from_iter proofs) ∧
    ((TrustDB.new.import_from_iter proofs).get_package_reviews_for_package
        source (some n) (some v)).isSome = true ∧
    ((TrustDB.new.import_from_iter proofs).get_package_reviews_for_package
        source (some n) none).isSome = true ∧
    ((TrustDB.new.import_from_iter proofs).get_package_reviews_for_package
        source none none).isSome = true := by
  have hinv := sigInv_import proofs
  refine ⟨hinv, ?_, ?_, ?_⟩
  · have hkey : ∀ s ∈ (alookup (source, n, v)
        (TrustDB.new.import_from_iter proofs).package_reviews_by_version).getD [],
        (alookup s (TrustDB.new.import_from_iter proofs).package_review_by_signature).isSome
          = true := by
      intro s hs
      cases hset : alookup (source, n, v)
          (TrustDB.new.import_from_iter proofs).package_reviews_by_version with
      | none => rw [hset] at hs; cases hs
      | some set =>
        rw [hset] at hs
        exact hinv s (Or.inr (Or.inr ⟨((source, n, v), set), alookup_mem hset, hs⟩))
    show (Option.map (List.insertionSort dateLe)
      ((TrustDB.new.import_from_iter proofs).materialize
        ((alookup (source, n, v)
          (TrustDB.new.import_from_iter proofs).package_reviews_by_version).getD []))).isSome
      = true
    have hmat := materialize_isSome hkey
    cases hmm : (TrustDB.new.import_from_iter proofs).materialize _ with
    | none => rw [hmm] at hmat; cases hmat
    | some l => rfl
  · have hkey : ∀ s ∈ (alookup (source, n)
        (TrustDB.new.import_from_iter proofs).package_reviews_by_name).getD [],
        (alookup s (TrustDB.new.import_from_iter proofs).package_review_by_signature).isSome
          = true := by
      intro s hs
      cases hset : alookup (source, n)
          (TrustDB.new.import_from_iter proofs).package_reviews_by_name with
      | none => rw [hset] at hs; cases hs
      | some set =>
        rw [hset] at hs
        exact hinv s (Or.inr (Or.inl ⟨((source, n), set), alookup_mem hset, hs⟩))
    show (Option.map (List.insertionSort dateLe)
      ((TrustDB.new.import_from_iter proofs).materialize
        ((alookup (source, n)
          (TrustDB.new.import_from_iter proofs).package_reviews_by_name).getD []))).isSome
      = true
    have hmat := materialize_isSome hkey
    cases hmm : (TrustDB.new.import_from_iter proofs).materialize _ with
    | none => rw [hmm] at hmat; cases hmat
    | some l => rfl
  · have hkey : ∀ s ∈ (alookup source
        (TrustDB.new.import_from_iter proofs).package_reviews_by_source).getD [],
        (alookup s (TrustDB.new.import_from_iter proofs).package_review_by_signature).isSome
          = true := by
      intro s hs
      cases hset : alookup source
          (TrustDB.new.import_from_iter proofs).package_reviews_by_source with
      | none => rw [hset] at hs; cases hs
      | some set =>
        rw [hset] at hs
        exact hinv s (Or.inl ⟨(source, set), alookup_mem hset, hs⟩)
    show (Option.map (List.insertionSort dateLe)
      ((TrustDB.new.import_from_iter proofs).materialize
        ((alookup source
          (TrustDB.new.import_from_iter proofs).package_reviews_by_source).getD []))).isSome
      = true
    have hmat := materialize_isSome hkey
    cases hmm : (TrustDB.new.import_from_iter proofs).materialize _ with
    | none => rw [hmm] at hmat; cases hmat
    | some l => rfl

/-- Witness for C10 at a one-proof import. -/
theorem crev_C10_witness :
    ((TrustDB.new.import_from_iter
        [⟨"s", Content.Package ⟨⟨1, "u1"⟩, 4, ⟨"crates", "foo", "1.0", 7⟩,
          ⟨Rating.Positive⟩⟩⟩]).get_package_reviews_for_package
      "crates" (some "foo") (some "1.0")).isSome = true :=
  (crev_C10
    [⟨"s", Content.Package ⟨⟨1, "u1"⟩, 4, ⟨"crates", "foo", "1.0", 7⟩,
      ⟨Rating.Positive⟩⟩⟩] "crates" "foo" "1.0").2.1

/-! ### Termination of the trust-set traversal (C9)

The loop measure `mu` (visited-map potential plus frontier size) strictly
decreases at every iteration with a non-empty frontier: a pop shrinks the
frontier by one, and every enqueue performed by the relaxation strictly
decreases the potential, because the enqueued identity's visited distance
either appears for the first time (dropping its potential contribution from
`max_distance + 1` to at most `max_distance`) or strictly improves. -/

theorem mem_pinsert {q x : Nat × Nat} {l : List (Nat × Nat)} :
    q ∈ pinsert x l ↔ q = x ∨ q ∈ l := by
  induction l with
  | nil => simp [pinsert]
  | cons y rest ih =>
    by_cases h1 : x.1 < y.1 ∨ (x.1 = y.1 ∧ x.2 < y.2)
    · simp [pinsert, h1, List.mem_cons]
    · by_cases h2 : x = y
      · subst h2
        rw [pinsert, if_neg h1, if_pos rfl]
        simp only [List.mem_cons]
        tauto
      · rw [pinsert, if_neg h1, if_neg h2]
        simp only [List.mem_cons, ih]
        tauto

theorem length_pinsert_le (x : Nat × Nat) (l : List (Nat × Nat)) :
    (pinsert x l).length ≤ l.length + 1 := by
  induction l with
  | nil => simp [pinsert]
  | cons y rest ih =>
    by_cases h1 : x.1 < y.1 ∨ (x.1 = y.1 ∧ x.2 < y.2)
    · simp [pinsert, h1]
    · by_cases h2 : x = y
      · subst h2
        rw [pinsert, if_neg h1, if_pos rfl]
        simp
      · rw [pinsert, if_neg h1, if_neg h2]
        simp only [List.length_cons]
        omega

theorem alookup_aset_self (k v : Nat) (m : List (Nat × Nat)) :
    alookup k (aset k v m) = some v := by
  induction m with
  | nil => simp [aset, alookup]
  | cons e rest ih =>
    obtain ⟨k', v'⟩ := e
    by_cases hk : k = k'
    · subst hk; simp [aset, alookup]
    · simp [aset, alookup, hk, ih]

theorem alookup_aset_ne {k' k : Nat} (h : k' ≠ k) (v : Nat) (m : List (Nat × Nat)) :
    alookup k' (aset k v m) = alookup k' m := by
  induction m with
  | nil => simp [aset, alookup, h]
  | cons e rest ih =>
    obtain ⟨k0, v0⟩ := e
    by_cases hk : k = k0
    · subst hk
      simp [aset, alookup, h, ih]
    · by_cases hk' : k' = k0
      · subst hk'
        simp [aset, alookup, hk]
      · simp [aset, alookup, hk, hk', ih]

theorem mem_aset {x : Nat × Nat} {k v : Nat} {m : List (Nat × Nat)}
    (h : x ∈ aset k v m) : x = (k, v) ∨ x ∈ m := by
  induction m with
  | nil => simpa [aset] using h
  | cons e rest ih =>
    obtain ⟨k0, v0⟩ := e
    by_cases hk : k = k0
    · subst hk
      simp only [aset, eq_self_iff_true, if_true, List.mem_cons] at h
      rcases h with h | h
      · exact Or.inl h
      · exact Or.inr (List.mem_cons_of_mem _ h)
    · simp only [aset, if_neg hk, List.mem_cons] at h
      rcases h with h | h
      · exact Or.inr (by simp [h])
      · rcases ih h with h' | h'
        · exact Or.inl h'
        · exact Or.inr (List.mem_cons_of_mem _ h')

theorem keys_aset_subset (k v : Nat) (m : List (Nat × Nat)) :
    (aset k v m).map Prod.fst ⊆ k :: m.map Prod.fst := by
  intro x hx
  rw [List.mem_map] at hx
  obtain ⟨e, he, hfst⟩ := hx
  rcases mem_aset he with h | h
  · subst h
    simp at hfst
    simp [hfst]
  · subst hfst
    exact List.mem_cons_of_mem _ (List.mem_map_of_mem Prod.fst h)

theorem nodup_keys_aset {m : List (Nat × Nat)} (k v : Nat)
    (h : (m.map Prod.fst).Nodup) : ((aset k v m).map Prod.fst).Nodup := by
  induction m with
  | nil => simp [aset]
  | cons e rest ih =>
    obtain ⟨k0, v0⟩ := e
    rw [List.map_cons, List.nodup_cons] at h
    by_cases hk : k = k0
    · subst hk
      simp only [aset, eq_self_iff_true, if_true, List.map_cons, List.nodup_cons]
      exact ⟨h.1, h.2⟩
    · simp only [aset, if_neg hk, List.map_cons, List.nodup_cons]
      refine ⟨?_, ih h.2⟩
      intro hcontra
      rcases List.mem_cons.1 (keys_aset_subset k v rest hcontra) with h' | h'
      · exact hk h'.symm
      · exact h.1 h'

theorem mem_alookup_nodup : ∀ {m : List (Nat × Nat)}, (m.map Prod.fst).Nodup →
    ∀ {x : Nat × Nat}, x ∈ m → alookup x.1 m = some x.2 := by
  intro m
  induction m with
  | nil => intro _ x hx; cases hx
  | cons e rest ih =>
    obtain ⟨k0, v0⟩ := e
    intro hnd x hx
    rw [List.map_cons, List.nodup_cons] at hnd
    rcases List.mem_cons.1 hx with h | h
    · subst h
      simp [alookup]
    · have hne : x.1 ≠ k0 := by
        intro heq
        apply hnd.1
        rw [← heq]
        exact List.mem_map.2 ⟨x, h, rfl⟩
      simp only [alookup, if_neg hne]
      exact ih hnd.2 h

theorem fval_aset_self (md k v : Nat) (m : List (Nat × Nat)) :
    fval md (aset k v m) k = v := by
  unfold fval
  rw [alookup_aset_self]

theorem fval_aset_ne (md : Nat) {k' k : Nat} (h : k' ≠ k) (v : Nat)
    (m : List (Nat × Nat)) : fval md (aset k v m) k' = fval md m k' := by
  unfold fval
  rw [alookup_aset_ne h]

theorem sum_map_fval_aset {U : List Nat} (hU : U.Nodup) {k : Nat} (hk : k ∈ U)
    (md v : Nat) (m : List (Nat × Nat)) :
    (U.map (fval md (aset k v m))).sum + fval md m k =
      (U.map (fval md m)).sum + v := by
  have hperm : U.Perm (k :: U.erase k) := List.perm_cons_erase hk
  have h1 : (U.map (fval md (aset k v m))).sum =
      fval md (aset k v m) k + ((U.erase k).map (fval md (aset k v m))).sum := by
    rw [(hperm.map (fval md (aset k v m))).sum_eq]
    rfl
  have h2 : (U.map (fval md m)).sum =
      fval md m k + ((U.erase k).map (fval md m)).sum := by
    rw [(hperm.map (fval md m)).sum_eq]
    rfl
  have h3 : ((U.erase k).map (fval md (aset k v m))).sum =
      ((U.erase k).map (fval md m)).sum := by
    have : ∀ x ∈ U.erase k, fval md (aset k v m) x = fval md m x := by
      intro x hx
      have hne : x ≠ k := (hU.mem_erase_iff.1 hx).1
      exact fval_aset_ne md hne v m
    rw [List.map_congr_left this]
  rw [h1, h2, h3, fval_aset_self]
  omega

theorem phi_aset_lt {db : TrustDB} {root : Nat} {md : Nat} {k v : Nat}
    {m : List (Nat × Nat)} (hk : k ∈ tsUniverse db root) (hv : v < fval md m k) :
    phi db root md (aset k v m) < phi db root md m := by
  have hU : (tsUniverse db root).Nodup := List.nodup_dedup _
  have := sum_map_fval_aset hU hk md v m
  unfold phi
  omega

theorem mem_targets_aux {v : Nat} :
    ∀ {l : List (Nat × List (Nat × Timestamped TrustLevel))}
      {e : Nat × List (Nat × Timestamped TrustLevel)}, e ∈ l →
      v ∈ e.2.map Prod.fst →
      v ∈ l.foldr (fun e acc => e.2.map Prod.fst ++ acc) [] := by
  intro l
  induction l with
  | nil => intro e he _; cases he
  | cons p rest ih =>
    intro e he hv
    rw [List.foldr_cons, List.mem_append]
    rcases List.mem_cons.1 he with h | h
    · subst h; exact Or.inl hv
    · exact Or.inr (ih h hv)

theorem get_ids_trusted_by_target {db : TrustDB} {u : Nat} {lvl : TrustLevel}
    {v : Nat} (h : (lvl, v) ∈ db.get_ids_trusted_by u) : v ∈ trustTargets db := by
  unfold TrustDB.get_ids_trusted_by at h
  rw [List.mem_map] at h
  obtain ⟨e, he, heq⟩ := h
  cases halook : alookup u db.trust_id_to_id with
  | none =>
    rw [halook] at he
    simp only [Option.getD_none] at he
    cases he
  | some inner =>
    rw [halook] at he
    simp only [Option.getD_some] at he
    have hv : v ∈ inner.map Prod.fst := by
      have h1 : e.1 = v := congrArg Prod.snd heq
      rw [← h1]
      exact List.mem_map.2 ⟨e, he, rfl⟩
    exact mem_targets_aux (alookup_mem halook) hv

theorem target_mem_tsUniverse {db : TrustDB} (root : Nat) {v : Nat}
    (h : v ∈ trustTargets db) : v ∈ tsUniverse db root :=
  List.mem_dedup.2 (List.mem_cons_of_mem _ h)

theorem root_mem_tsUniverse (db : TrustDB) (root : Nat) :
    root ∈ tsUniverse db root :=
  List.mem_dedup.2 (List.mem_cons_self _ _)

theorem mu_relaxOne_le (db : TrustDB) (root : Nat) (params : TrustDistanceParams)
    (d : Nat) (s : TSState) (e : TrustLevel × Nat)
    (he : e.2 ∈ tsUniverse db root) :
    mu db root params.max_distance (relaxOne params d s e) ≤
      mu db root params.max_distance s := by
  cases hw : params.distance_by_level e.1 with
  | none =>
    simp only [relaxOne, hw]
    exact le_refl _
  | some w =>
    simp only [relaxOne, hw]
    by_cases hmax : d + w > params.max_distance
    · rw [if_pos hmax]
    · rw [if_neg hmax]
      cases hv : alookup e.2 s.visited with
      | some prev =>
        show mu db root params.max_distance
          (if prev > d + w then
            TSState.mk (pinsert (d + w, e.2) s.pending) (aset e.2 (d + w) s.visited)
           else s) ≤ mu db root params.max_distance s
        by_cases himp : prev > d + w
        · rw [if_pos himp]
          have hphi : phi db root params.max_distance (aset e.2 (d + w) s.visited) <
              phi db root params.max_distance s.visited := by
            refine phi_aset_lt he ?_
            unfold fval
            simp only [hv]
            omega
          have hlen := length_pinsert_le (d + w, e.2) s.pending
          show phi db root params.max_distance (aset e.2 (d + w) s.visited) +
              (pinsert (d + w, e.2) s.pending).length ≤
            phi db root params.max_distance s.visited + s.pending.length
          omega
        · rw [if_neg himp]
      | none =>
        show mu db root params.max_distance
          (TSState.mk (pinsert (d + w, e.2) s.pending) (aset e.2 (d + w) s.visited)) ≤
          mu db root params.max_distance s
        have hphi : phi db root params.max_distance (aset e.2 (d + w) s.visited) <
            phi db root params.max_distance s.visited := by
          refine phi_aset_lt he ?_
          unfold fval
          simp only [hv]
          omega
        have hlen := length_pinsert_le (d + w, e.2) s.pending
        show phi db root params.max_distance (aset e.2 (d + w) s.visited) +
            (pinsert (d + w, e.2) s.pending).length ≤
          phi db root params.max_distance s.visited + s.pending.length
        omega

theorem mu_relaxFold_le (db : TrustDB) (root : Nat) (params : TrustDistanceParams)
    (d : Nat) :
    ∀ (edges : List (TrustLevel × Nat)) (s : TSState),
      (∀ e ∈ edges, e.2 ∈ tsUniverse db root) →
      mu db root params.max_distance (edges.foldl (relaxOne params d) s) ≤
        mu db root params.max_distance s := by
  intro edges
  induction edges with
  | nil => intro s _; exact le_refl _
  | cons e rest ih =>
    intro s hmem
    rw [List.foldl_cons]
    exact le_trans (ih _ (fun q hq => hmem q (List.mem_cons_of_mem _ hq)))
      (mu_relaxOne_le db root params d s e (hmem e (List.mem_cons_self _ _)))

theorem mu_tsStep_lt (db : TrustDB) (root : Nat) (params : TrustDistanceParams)
    (s : TSState) (h : s.pending ≠ []) :
    mu db root params.max_distance (tsStep db params s) <
      mu db root params.max_distance s := by
  obtain ⟨pend, vis⟩ := s
  cases pend with
  | nil => exact absurd rfl h
  | cons current rest =>
    have hedges : ∀ e ∈ db.get_ids_trusted_by current.2, e.2 ∈ tsUniverse db root := by
      intro e hq
      obtain ⟨lvl, v⟩ := e
      exact target_mem_tsUniverse root (get_ids_trusted_by_target hq)
    cases hv : alookup current.2 vis with
    | some vd =>
      by_cases hlt : vd < current.1
      · have hstep : tsStep db params ⟨current :: rest, vis⟩ = ⟨rest, vis⟩ := by
          unfold tsStep
          simp only [hv]
          rw [if_pos (by simp [hlt])]
        rw [hstep]
        show phi db root params.max_distance vis + rest.length <
          phi db root params.max_distance vis + (current :: rest).length
        simp
      · have hstep : tsStep db params ⟨current :: rest, vis⟩ =
            (db.get_ids_trusted_by current.2).foldl (relaxOne params current.1)
              ⟨rest, vis⟩ := by
          unfold tsStep
          simp only [hv]
          rw [if_neg (by simp [hlt])]
        rw [hstep]
        refine lt_of_le_of_lt
          (mu_relaxFold_le db root params current.1 _ ⟨rest, vis⟩ hedges) ?_
        show phi db root params.max_distance vis + rest.length <
          phi db root params.max_distance vis + (current :: rest).length
        simp
    | none =>
      have hstep : tsStep db params ⟨current :: rest, vis⟩ =
          (db.get_ids_trusted_by current.2).foldl (relaxOne params current.1)
            ⟨rest, vis⟩ := by
        unfold tsStep
        simp only [hv]
        simp
      rw [hstep]
      refine lt_of_le_of_lt
        (mu_relaxFold_le db root params current.1 _ ⟨rest, vis⟩ hedges) ?_
      show phi db root params.max_distance vis + rest.length <
        phi db root params.max_distance vis + (current :: rest).length
      simp

theorem tsLoop_drains (db : TrustDB) (root : Nat) (params : TrustDistanceParams) :
    ∀ (n : Nat) (s : TSState), mu db root params.max_distance s < n →
      (tsLoop db params n s).pending = [] := by
  intro n
  induction n with
  | zero => intro s h; omega
  | succ n ih =>
    intro s h
    have hl : tsLoop db params (n + 1) s =
        match s.pending with
        | [] => s
        | _ :: _ => tsLoop db params n (tsStep db params s) := rfl
    cases hp : s.pending with
    | nil =>
      rw [hl, hp]
      exact hp
    | cons q rest =>
      rw [hl, hp]
      show (tsLoop db params n (tsStep db params s)).pending = []
      refine ih _ ?_
      have := mu_tsStep_lt db root params s (by rw [hp]; exact List.cons_ne_nil _ _)
      omega

/-- C9: the `calculate_trust_set` extraction loop terminates on every database,
root and parameter set: an identity is re-enqueued only together with a strict
decrease of its recorded distance (distances are naturals bounded by
`max_distance`), so the measure `mu` strictly decreases at every iteration and
the frontier is drained within the computed fuel `tsFuel`, even on cyclic
trust graphs. -/
theorem crev_C9 (db : TrustDB) (root : Nat) (params : TrustDistanceParams) :
    (tsLoop db params (tsFuel db root params) (tsInit root)).pending = [] :=
  tsLoop_drains db root params (tsFuel db root params) (tsInit root)
    (Nat.lt_succ_self _)

/-! ### Correctness of the trust-set traversal (C2, C5)

The loop invariant `TSInv`: every visited entry is realized by a trust path of
exactly its recorded distance within the budget; every pending entry has a
path and a visited record at most its distance; the root stays visited at 0;
and every visited identity either still has its exact entry pending or all its
outgoing edges have been relaxed at its recorded distance.  At termination the
frontier is empty, so every visited identity is fully relaxed, which gives
completeness; soundness is the path stored with every visited entry. -/

/-- All outgoing edges of `u` are relaxed with respect to the recorded
distance `du`: each traversable edge within the budget has its target visited
at no more than `du + w`. -/
def RelaxedAt (db : TrustDB) (params : TrustDistanceParams)
    (visited : List (Nat × Nat)) (u du : Nat) : Prop :=
  ∀ lvl v w, (lvl, v) ∈ db.get_ids_trusted_by u →
    params.distance_by_level lvl = some w →
    du + w ≤ params.max_distance →
    ∃ dv, alookup v visited = some dv ∧ dv ≤ du + w

/-- The prefix `done` of `u`'s outgoing edges has been relaxed at distance
`d`. -/
def PartRelaxedAt (_db : TrustDB) (params : TrustDistanceParams)
    (visited : List (Nat × Nat)) (d : Nat)
    (done : List (TrustLevel × Nat)) : Prop :=
  ∀ lvl v w, (lvl, v) ∈ done →
    params.distance_by_level lvl = some w →
    d + w ≤ params.max_distance →
    ∃ dv, alookup v visited = some dv ∧ dv ≤ d + w

/-- Visited distances only persist and decrease. -/
def VisLe (vis vis' : List (Nat × Nat)) : Prop :=
  ∀ x dx, alookup x vis = some dx → ∃ dx', alookup x vis' = some dx' ∧ dx' ≤ dx

theorem relaxedAt_mono {db : TrustDB} {params : TrustDistanceParams}
    {vis vis' : List (Nat × Nat)} {u du : Nat} (hle : VisLe vis vis')
    (h : RelaxedAt db params vis u du) : RelaxedAt db params vis' u du := by
  intro lvl v w hm hw hb
  obtain ⟨dv, hdv, hdvle⟩ := h lvl v w hm hw hb
  obtain ⟨dv', hdv', hdvle'⟩ := hle v dv hdv
  exact ⟨dv', hdv', le_trans hdvle' hdvle⟩

theorem partRelaxedAt_mono {db : TrustDB} {params : TrustDistanceParams}
    {vis vis' : List (Nat × Nat)} {d : Nat} {done : List (TrustLevel × Nat)}
    (hle : VisLe vis vis') (h : PartRelaxedAt db params vis d done) :
    PartRelaxedAt db params vis' d done := by
  intro lvl v w hm hw hb
  obtain ⟨dv, hdv, hdvle⟩ := h lvl v w hm hw hb
  obtain ⟨dv', hdv', hdvle'⟩ := hle v dv hdv
  exact ⟨dv', hdv', le_trans hdvle' hdvle⟩

theorem visLe_aset {vis : List (Nat × Nat)} {k nv : Nat}
    (h : ∀ prev, alookup k vis = some prev → nv ≤ prev) :
    VisLe vis (aset k nv vis) := by
  intro x dx hx
  by_cases hk : x = k
  · subst hk
    exact ⟨nv, alookup_aset_self x nv vis, h dx hx⟩
  · rw [alookup_aset_ne hk]
    exact ⟨dx, hx, le_refl dx⟩

/-- The loop invariant of `calculate_trust_set`. -/
structure TSInv (db : TrustDB) (params : TrustDistanceParams) (root : Nat)
    (s : TSState) : Prop where
  vis_nodup : (s.visited.map Prod.fst).Nodup
  vis_bound : ∀ p ∈ s.visited,
    TrustPath db params root p.1 p.2 ∧ p.2 ≤ params.max_distance
  pend_path : ∀ q ∈ s.pending,
    TrustPath db params root q.2 q.1 ∧ q.1 ≤ params.max_distance
  pend_vis : ∀ q ∈ s.pending, ∃ du, alookup q.2 s.visited = some du ∧ du ≤ q.1
  root_mem : alookup root s.visited = some 0
  relaxed : ∀ p ∈ s.visited,
    (p.2, p.1) ∈ s.pending ∨ RelaxedAt db params s.visited p.1 p.2

/-- The invariant during the relaxation of `u`'s edge list at distance `d`,
with `done` the prefix already relaxed: identical to `TSInv` except that the
entry of `u` itself may be only partially relaxed. -/
structure MidInv (db : TrustDB) (params : TrustDistanceParams) (root u d : Nat)
    (done : List (TrustLevel × Nat)) (s : TSState) : Prop where
  vis_nodup : (s.visited.map Prod.fst).Nodup
  vis_bound : ∀ p ∈ s.visited,
    TrustPath db params root p.1 p.2 ∧ p.2 ≤ params.max_distance
  pend_path : ∀ q ∈ s.pending,
    TrustPath db params root q.2 q.1 ∧ q.1 ≤ params.max_distance
  pend_vis : ∀ q ∈ s.pending, ∃ du, alookup q.2 s.visited = some du ∧ du ≤ q.1
  root_mem : alookup root s.visited = some 0
  relaxedM : ∀ p ∈ s.visited,
    (p.2, p.1) ∈ s.pending ∨ RelaxedAt db params s.visited p.1 p.2 ∨
      (p.1 = u ∧ p.2 = d ∧ PartRelaxedAt db params s.visited d done)

/-- A relaxation step that leaves the state unchanged preserves the
mid-invariant, provided the freshly processed edge is already relaxed. -/
theorem unchanged_mid {db : TrustDB} {params : TrustDistanceParams}
    {root u d : Nat} {done : List (TrustLevel × Nat)} {s : TSState}
    {lvl : TrustLevel} {v : Nat}
    (hinv : MidInv db params root u d done s)
    (hnew : ∀ w', params.distance_by_level lvl = some w' →
      d + w' ≤ params.max_distance →
      ∃ dv, alookup v s.visited = some dv ∧ dv ≤ d + w') :
    MidInv db params root u d (done ++ [(lvl, v)]) s := by
  refine ⟨hinv.vis_nodup, hinv.vis_bound, hinv.pend_path, hinv.pend_vis,
    hinv.root_mem, ?_⟩
  intro p hp
  rcases hinv.relaxedM p hp with h | h | ⟨h1, h2, h3⟩
  · exact Or.inl h
  · exact Or.inr (Or.inl h)
  · refine Or.inr (Or.inr ⟨h1, h2, ?_⟩)
    intro lvl' v' w' hm hw' hb
    rcases List.mem_append.1 hm with hm | hm
    · exact h3 lvl' v' w' hm hw' hb
    · rw [List.mem_singleton, Prod.mk.injEq] at hm
      obtain ⟨rfl, rfl⟩ := hm
      exact hnew w' hw' hb

/-- A relaxation step that records and enqueues the candidate preserves the
mid-invariant. -/
theorem insert_mid {db : TrustDB} {params : TrustDistanceParams} {root u d : Nat}
    {done : List (TrustLevel × Nat)} {s : TSState} {lvl : TrustLevel} {v w : Nat}
    (hinv : MidInv db params root u d done s)
    (hpath : TrustPath db params root u d)
    (hedge : (lvl, v) ∈ db.get_ids_trusted_by u)
    (hw : params.distance_by_level lvl = some w)
    (hmax : d + w ≤ params.max_distance)
    (hprev : ∀ prev, alookup v s.visited = some prev → d + w < prev) :
    MidInv db params root u d (done ++ [(lvl, v)])
      ⟨pinsert (d + w, v) s.pending, aset v (d + w) s.visited⟩ := by
  have hVisLe : VisLe s.visited (aset v (d + w) s.visited) :=
    visLe_aset (fun prev hp => le_of_lt (hprev prev hp))
  have hnewpath : TrustPath db params root v (d + w) :=
    TrustPath.snoc hpath hedge hw
  refine ⟨nodup_keys_aset _ _ hinv.vis_nodup, ?_, ?_, ?_, ?_, ?_⟩
  · intro p hp
    rcases mem_aset hp with heq | hp'
    · subst heq
      exact ⟨hnewpath, hmax⟩
    · exact hinv.vis_bound p hp'
  · intro q hq
    rcases mem_pinsert.1 hq with heq | hq'
    · subst heq
      exact ⟨hnewpath, hmax⟩
    · exact hinv.pend_path q hq'
  · intro q hq
    rcases mem_pinsert.1 hq with heq | hq'
    · subst heq
      exact ⟨d + w, alookup_aset_self _ _ _, le_refl _⟩
    · obtain ⟨du, hdu, hdule⟩ := hinv.pend_vis q hq'
      obtain ⟨du', hdu', hle'⟩ := hVisLe _ _ hdu
      exact ⟨du', hdu', le_trans hle' hdule⟩
  · by_cases hvr : v = root
    · subst hvr
      have := hprev 0 hinv.root_mem
      omega
    · rw [alookup_aset_ne (Ne.symm hvr)]
      exact hinv.root_mem
  · intro p hp
    rcases mem_aset hp with heq | hp'
    · subst heq
      exact Or.inl (mem_pinsert.2 (Or.inl rfl))
    · rcases hinv.relaxedM p hp' with h | h | ⟨h1, h2, h3⟩
      · exact Or.inl (mem_pinsert.2 (Or.inr h))
      · exact Or.inr (Or.inl (relaxedAt_mono hVisLe h))
      · refine Or.inr (Or.inr ⟨h1, h2, ?_⟩)
        intro lvl' v' w' hm hw' hb
        rcases List.mem_append.1 hm with hm | hm
        · exact partRelaxedAt_mono hVisLe h3 lvl' v' w' hm hw' hb
        · rw [List.mem_singleton, Prod.mk.injEq] at hm
          obtain ⟨rfl, rfl⟩ := hm
          rw [hw] at hw'
          have hww : w' = w := (Option.some.inj hw').symm
          exact ⟨d + w, alookup_aset_self _ _ _, by omega⟩

/-- Relaxing one edge of `u` at distance `d` preserves the mid-invariant,
extending the relaxed prefix by that edge. -/
theorem relaxOne_mid {db : TrustDB} {params : TrustDistanceParams} {root u d : Nat}
    {done : List (TrustLevel × Nat)} {s : TSState}
    (hinv : MidInv db params root u d done s)
    (hpath : TrustPath db params root u d)
    (e : TrustLevel × Nat) (hedge : e ∈ db.get_ids_trusted_by u) :
    MidInv db params root u d (done ++ [e]) (relaxOne params d s e) := by
  obtain ⟨lvl, v⟩ := e
  cases hw : params.distance_by_level lvl with
  | none =>
    have hs : relaxOne params d s (lvl, v) = s := by
      simp [relaxOne, hw]
    rw [hs]
    refine unchanged_mid hinv ?_
    intro w' hw' _
    rw [hw] at hw'
    cases hw'
  | some w =>
    by_cases hmax : d + w > params.max_distance
    · have hs : relaxOne params d s (lvl, v) = s := by
        simp only [relaxOne, hw]
        rw [if_pos hmax]
      rw [hs]
      refine unchanged_mid hinv ?_
      intro w' hw' hb
      rw [hw] at hw'
      have hww : w' = w := (Option.some.inj hw').symm
      exact absurd hb (by omega)
    · cases hv : alookup v s.visited with
      | some prev =>
        by_cases himp : prev > d + w
        · have hs : relaxOne params d s (lvl, v) =
              ⟨pinsert (d + w, v) s.pending, aset v (d + w) s.visited⟩ := by
            simp only [relaxOne, hw]
            rw [if_neg hmax]
            simp only [hv]
            rw [if_pos himp]
          rw [hs]
          refine insert_mid hinv hpath hedge hw (by omega) ?_
          intro prev' hprev'
          rw [hv] at hprev'
          have : prev' = prev := (Option.some.inj hprev').symm
          omega
        · have hs : relaxOne params d s (lvl, v) = s := by
            simp only [relaxOne, hw]
            rw [if_neg hmax]
            simp only [hv]
            rw [if_neg himp]
          rw [hs]
          refine unchanged_mid hinv ?_
          intro w' hw' hb
          rw [hw] at hw'
          have hww : w' = w := (Option.some.inj hw').symm
          exact ⟨prev, hv, by omega⟩
      | none =>
        have hs : relaxOne params d s (lvl, v) =
            ⟨pinsert (d + w, v) s.pending, aset v (d + w) s.visited⟩ := by
          simp only [relaxOne, hw]
          rw [if_neg hmax]
          simp only [hv]
        rw [hs]
        refine insert_mid hinv hpath hedge hw (by omega) ?_
        intro prev' hprev'
        rw [hv] at hprev'
        cases hprev'

/-- Relaxing a suffix of `u`'s edge list preserves the mid-invariant. -/
theorem relaxFold_mid {db : TrustDB} {params : TrustDistanceParams}
    {root u d : Nat} (hpath : TrustPath db params root u d) :
    ∀ (todo done : List (TrustLevel × Nat)) (s : TSState),
      (∀ e ∈ todo, e ∈ db.get_ids_trusted_by u) →
      MidInv db params root u d done s →
      MidInv db params root u d (done ++ todo)
        (todo.foldl (relaxOne params d) s) := by
  intro todo
  induction todo with
  | nil =>
    intro done s _ h
    simpa using h
  | cons e rest ih =>
    intro done s hsub h
    rw [List.foldl_cons]
    have h1 := relaxOne_mid h hpath e (hsub e (List.mem_cons_self _ _))
    have h2 := ih (done ++ [e]) _ (fun q hq => hsub q (List.mem_cons_of_mem _ hq)) h1
    have heq : (done ++ [e]) ++ rest = done ++ e :: rest := by simp
    rw [heq] at h2
    exact h2

/-- One loop iteration preserves the invariant. -/
theorem tsInv_tsStep {db : TrustDB} {params : TrustDistanceParams} {root : Nat}
    {s : TSState} (h : TSInv db params root s) :
    TSInv db params root (tsStep db params s) := by
  obtain ⟨pend, vis⟩ := s
  cases pend with
  | nil => exact h
  | cons current rest =>
    obtain ⟨hTP, hle⟩ := h.pend_path current (List.mem_cons_self _ _)
    obtain ⟨vd, hvd, hvdle⟩ := h.pend_vis current (List.mem_cons_self _ _)
    by_cases hlt : vd < current.1
    · have hstep : tsStep db params ⟨current :: rest, vis⟩ = ⟨rest, vis⟩ := by
        unfold tsStep
        simp only [hvd]
        rw [if_pos (by simp [hlt])]
      rw [hstep]
      refine ⟨h.vis_nodup, h.vis_bound, ?_, ?_, h.root_mem, ?_⟩
      · intro q hq
        exact h.pend_path q (List.mem_cons_of_mem _ hq)
      · intro q hq
        exact h.pend_vis q (List.mem_cons_of_mem _ hq)
      · intro p hp
        rcases h.relaxed p hp with hh | hh
        · rcases List.mem_cons.1 hh with heq | hh'
          · exfalso
            have hpl : alookup p.1 vis = some p.2 := mem_alookup_nodup h.vis_nodup hp
            have h1 : p.1 = current.2 := congrArg Prod.snd heq
            have h2 : p.2 = current.1 := congrArg Prod.fst heq
            rw [h1, h2, hvd] at hpl
            have : vd = current.1 := Option.some.inj hpl
            omega
          · exact Or.inl hh'
        · exact Or.inr hh
    · have hstep : tsStep db params ⟨current :: rest, vis⟩ =
          (db.get_ids_trusted_by current.2).foldl (relaxOne params current.1)
            ⟨rest, vis⟩ := by
        unfold tsStep
        simp only [hvd]
        rw [if_neg (by simp [hlt])]
      rw [hstep]
      have hmid : MidInv db params root current.2 current.1 [] ⟨rest, vis⟩ := by
        refine ⟨h.vis_nodup, h.vis_bound, ?_, ?_, h.root_mem, ?_⟩
        · intro q hq
          exact h.pend_path q (List.mem_cons_of_mem _ hq)
        · intro q hq
          exact h.pend_vis q (List.mem_cons_of_mem _ hq)
        · intro p hp
          rcases h.relaxed p hp with hh | hh
          · rcases List.mem_cons.1 hh with heq | hh'
            · refine Or.inr (Or.inr
                ⟨congrArg Prod.snd heq, congrArg Prod.fst heq, ?_⟩)
              intro lvl' v' w' hm _ _
              cases hm
            · exact Or.inl hh'
          · exact Or.inr (Or.inl hh)
      have hres := relaxFold_mid hTP (db.get_ids_trusted_by current.2) []
        ⟨rest, vis⟩ (fun e he => he) hmid
      rw [List.nil_append] at hres
      refine ⟨hres.vis_nodup, hres.vis_bound, hres.pend_path, hres.pend_vis,
        hres.root_mem, ?_⟩
      intro p hp
      rcases hres.relaxedM p hp with hh | hh | ⟨h1, h2, h3⟩
      · exact Or.inl hh
      · exact Or.inr hh
      · refine Or.inr ?_
        rw [h1, h2]
        intro lvl' v' w' hm hw' hb
        exact h3 lvl' v' w' hm hw' hb

/-- The initial state satisfies the invariant. -/
theorem tsInv_init (db : TrustDB) (params : TrustDistanceParams) (root : Nat) :
    TSInv db params root (tsInit root) := by
  refine ⟨?_, ?_, ?_, ?_, ?_, ?_⟩
  · simp [tsInit]
  · intro p hp
    simp only [tsInit, List.mem_singleton] at hp
    subst hp
    exact ⟨TrustPath.nil, Nat.zero_le _⟩
  · intro q hq
    simp only [tsInit, List.mem_singleton] at hq
    subst hq
    exact ⟨TrustPath.nil, Nat.zero_le _⟩
  · intro q hq
    simp only [tsInit, List.mem_singleton] at hq
    subst hq
    exact ⟨0, by simp [tsInit, alookup], le_refl 0⟩
  · simp [tsInit, alookup]
  · intro p hp
    simp only [tsInit, List.mem_singleton] at hp
    subst hp
    exact Or.inl (List.mem_singleton.2 rfl)

/-- The loop preserves the invariant. -/
theorem tsInv_tsLoop {db : TrustDB} {params : TrustDistanceParams} {root : Nat} :
    ∀ (n : Nat) {s : TSState}, TSInv db params root s →
      TSInv db params root (tsLoop db params n s) := by
  intro n
  induction n with
  | zero => intro s h; exact h
  | succ n ih =>
    intro s h
    have hl : tsLoop db params (n + 1) s =
        match s.pending with
        | [] => s
        | _ :: _ => tsLoop db params n (tsStep db params s) := rfl
    cases hp : s.pending with
    | nil =>
      rw [hl, hp]
      exact h
    | cons q rest =>
      rw [hl, hp]
      show TSInv db params root (tsLoop db params n (tsStep db params s))
      exact ih (tsInv_tsStep h)

/-- The characterization of `calculate_trust_set`: an identity is in the
result exactly when some trust path from the root reaches it with total weight
within the distance budget. -/
theorem mem_calculate_trust_set_iff (db : TrustDB) (root : Nat)
    (params : TrustDistanceParams) (v : Nat) :
    v ∈ db.calculate_trust_set root params ↔
      ∃ c, c ≤ params.max_distance ∧ TrustPath db params root v c := by
  have hinv : TSInv db params root
      (tsLoop db params (tsFuel db root params) (tsInit root)) :=
    tsInv_tsLoop _ (tsInv_init db params root)
  have hpend : (tsLoop db params (tsFuel db root params) (tsInit root)).pending
      = [] :=
    tsLoop_drains db root params _ _ (Nat.lt_succ_self _)
  constructor
  · intro hv
    unfold TrustDB.calculate_trust_set at hv
    rw [List.mem_map] at hv
    obtain ⟨p, hp, hfst⟩ := hv
    obtain ⟨hTP, hle⟩ := hinv.vis_bound p hp
    subst hfst
    exact ⟨p.2, hle, hTP⟩
  · rintro ⟨c, hc, hpath⟩
    have hcomp : ∀ {x cx}, TrustPath db params root x cx →
        cx ≤ params.max_distance →
        ∃ dx, alookup x
            (tsLoop db params (tsFuel db root params) (tsInit root)).visited
          = some dx ∧ dx ≤ cx := by
      intro x cx hp
      induction hp with
      | nil =>
        intro _
        exact ⟨0, hinv.root_mem, le_refl 0⟩
      | @snoc u c0 lvl v' w hp0 hedge hw ih =>
        intro hle
        obtain ⟨du, hdu, hdule⟩ := ih (by omega)
        have hmem := alookup_mem hdu
        have hrel : RelaxedAt db params
            (tsLoop db params (tsFuel db root params) (tsInit root)).visited
            u du := by
          rcases hinv.relaxed _ hmem with hh | hh
          · rw [hpend] at hh
            cases hh
          · exact hh
        obtain ⟨dv, hdv, hdvle⟩ := hrel lvl v' w hedge hw (by omega)
        exact ⟨dv, hdv, by omega⟩
    obtain ⟨dv, hdv, _⟩ := hcomp hpath hc
    unfold TrustDB.calculate_trust_set
    rw [List.mem_map]
    exact ⟨(v, dv), alookup_mem hdv, rfl⟩

/-- C2: `calculate_trust_set` returns exactly the identities reachable from
the root through stored trust edges of level Low, Medium or High (weighted by
the per-level distances; None and Distrust edges do not exist for traversal)
by some path of total weight at most `max_distance`; the root is always a
member, even with no outgoing edges. -/
theorem crev_C2 (db : TrustDB) (root : Nat) (params : TrustDistanceParams) :
    (∀ v, v ∈ db.calculate_trust_set root params ↔
      ∃ c, c ≤ params.max_distance ∧ TrustPath db params root v c) ∧
    root ∈ db.calculate_trust_set root params :=
  ⟨fun v => mem_calculate_trust_set_iff db root params v,
    (mem_calculate_trust_set_iff db root params root).2
      ⟨0, Nat.zero_le _, TrustPath.nil⟩⟩

theorem trustPath_mono_params {db : TrustDB} {root v c : Nat}
    {p p' : TrustDistanceParams}
    (hw : ∀ l, p'.distance_by_level l = p.distance_by_level l)
    (h : TrustPath db p root v c) : TrustPath db p' root v c := by
  induction h with
  | nil => exact TrustPath.nil
  | snoc hp0 hedge hwl ih =>
    exact TrustPath.snoc ih hedge (by rw [hw]; exact hwl)

/-- C5: the trust set is monotone in the distance budget: every identity in
the trust set computed with budget `max_distance` is also in the trust set
computed with budget `max_distance + 1` (same weights). -/
theorem crev_C5 (db : TrustDB) (root : Nat) (p : TrustDistanceParams) (v : Nat)
    (h : v ∈ db.calculate_trust_set root p) :
    v ∈ db.calculate_trust_set root
      { p with max_distance := p.max_distance + 1 } := by
  rw [mem_calculate_trust_set_iff] at h ⊢
  obtain ⟨c, hc, hpath⟩ := h
  refine ⟨c, ?_, ?_⟩
  · show c ≤ p.max_distance + 1
    omega
  · exact trustPath_mono_params (fun l => by cases l <;> rfl) hpath

/-- Witness for C5: on the empty database the root belongs to the trust set at
the default budget, hence also at budget 11. -/
theorem crev_C5_witness :
    0 ∈ TrustDB.new.calculate_trust_set 0
      { TrustDistanceParams.default with max_distance := 11 } :=
  crev_C5 TrustDB.new 0 TrustDistanceParams.default 0 (by decide)
